import Mathlib

/-!
Verification of the knight's shortest path program (`main.py`).

The program is shallowly embedded: Python `dict`s become association lists
(`List (key × value)`) preserving insertion order, CPython's `heapq`
(`heappush` / `heappop` with `_siftdown` / `_siftup`) is translated function
by function, Python integers become `Int`, and operations that can raise
`KeyError` return an explicit error value.  The unbounded `while` loop of
`dijkstra` is embedded with a fuel parameter; a theorem shows the chosen
fuel bound is always sufficient.
-/

set_option maxHeartbeats 1000000
set_option maxRecDepth 8000

namespace Knights

/-- A node label (a Python `str`). -/
abbrev Node := String

/-- Inner dict of `graph`: neighbour label to edge weight (Python int). -/
abbrev Nbrs := List (Node × Int)

/-- `graph`: a Python dict mapping node labels to neighbour dicts, embedded as
an insertion-ordered association list. -/
abbrev Graph := List (Node × Nbrs)

/-- Python `d[k]` read access on a dict: the value at the first (and in a real
dict, only) occurrence of the key. -/
def dlookup {α : Type} : List (Node × α) → Node → Option α
  | [], _ => none
  | (k, v) :: rest, key => if k = key then some v else dlookup rest key

/-- Python `d[k] = v` on a dict when `k` is already present: replace the value
at the first occurrence of `k`, keeping its position; if `k` is absent append
`(k, v)` at the end (a fresh key is inserted last, as in a Python dict). -/
def dset {α : Type} : List (Node × α) → Node → α → List (Node × α)
  | [], key, v => [(key, v)]
  | (k, w) :: rest, key, v =>
      if k = key then (k, v) :: rest else (k, w) :: dset rest key v

/-- The keys of a dict, in insertion order. -/
def dkeys {α : Type} (d : List (Node × α)) : List Node := d.map Prod.fst

/-- The weight of the edge `a → b`, i.e. `graph[a][b]` when both lookups
succeed. -/
def edgeW (g : Graph) (a b : Node) : Option Int :=
  (dlookup g a).bind (fun nbrs => dlookup nbrs b)

/-- `sys.maxsize`: the sentinel used by `dijkstra` as infinity. -/
def inf : Int := 9223372036854775807

/-- `' '.join(xs)`. -/
def joinSpace : List String → String
  | [] => ""
  | [s] => s
  | s :: rest => s ++ " " ++ joinSpace rest

/-! ### The CPython `heapq` priority queue

Heap entries are the tuples `(cost, node)` pushed by `dijkstra`; Python
compares them lexicographically. -/

/-- A heap entry `(cost, node)`. -/
abbrev Entry := Int × Node

/-- Python `<` on strings, acting on their character lists: code-point
lexicographic comparison (a strict prefix is smaller). -/
def strLt : List Char → List Char → Bool
  | [], [] => false
  | [], _ :: _ => true
  | _ :: _, [] => false
  | a :: as, b :: bs => if a < b then true else if b < a then false else strLt as bs

/-- Python `<` on the tuples `(cost, node)`: compare costs first, then node
strings. -/
def entLt (a b : Entry) : Bool :=
  decide (a.1 < b.1) || (decide (a.1 = b.1) && strLt a.2.data b.2.data)

/-- Default entry used for (never taken) out-of-bounds reads. -/
def entD : Entry := (0, "")

/-- The loop of CPython `heapq._siftdown(heap, startpos, pos)`: `newitem`
(read from `heap[pos]` by the caller) bubbles up towards `startpos`, moving
parents down, and is finally written at the resting position.  The first
`Nat` argument is structural fuel: the hole position strictly decreases on
every iteration, so fuel `pos` (as passed by `siftdown`) is always enough and
the fuel-exhausted base case (which coincides with the loop's exit action) is
never the deciding one. -/
def siftdownLoop (newitem : Entry) (startpos : Nat) :
    Nat → List Entry → Nat → List Entry
  | 0, heap, pos => heap.set pos newitem
  | fuel + 1, heap, pos =>
      if startpos < pos then
        if entLt newitem (heap.getD ((pos - 1) / 2) entD) then
          siftdownLoop newitem startpos fuel
            (heap.set pos (heap.getD ((pos - 1) / 2) entD)) ((pos - 1) / 2)
        else
          heap.set pos newitem
      else
        heap.set pos newitem

/-- CPython `heapq._siftdown(heap, startpos, pos)`. -/
def siftdown (heap : List Entry) (startpos pos : Nat) : List Entry :=
  siftdownLoop (heap.getD pos entD) startpos pos heap pos

/-- The `childpos` selection of CPython `heapq._siftup`: the right child
`2*pos+2` when it exists and the left child is not smaller, else the left
child `2*pos+1`. -/
def childIdx (heap : List Entry) (endpos pos : Nat) : Nat :=
  if 2 * pos + 2 < endpos &&
      !entLt (heap.getD (2 * pos + 1) entD) (heap.getD (2 * pos + 2) entD)
  then 2 * pos + 2 else 2 * pos + 1

/-- The descending loop of CPython `heapq._siftup`: starting from the hole at
`pos`, repeatedly move the smaller child up into the hole, until the hole
reaches a leaf.  Returns the updated list and the final hole position.  The
first `Nat` argument is structural fuel: the hole position strictly increases
and stays below `endpos`, so fuel `endpos` is always enough and the
fuel-exhausted base case (which coincides with the loop's exit action) is
never the deciding one. -/
def siftupLoop (endpos : Nat) : Nat → List Entry → Nat → List Entry × Nat
  | 0, heap, pos => (heap, pos)
  | fuel + 1, heap, pos =>
      if 2 * pos + 1 < endpos then
        siftupLoop endpos fuel
          (heap.set pos (heap.getD (childIdx heap endpos pos) entD))
          (childIdx heap endpos pos)
      else
        (heap, pos)

/-- CPython `heapq._siftup(heap, pos)`: descend with `siftupLoop`, write the
saved `newitem` into the final hole, then `_siftdown` from there back towards
the start position. -/
def siftup (heap : List Entry) (pos : Nat) : List Entry :=
  siftdownLoop (heap.getD pos entD) pos
    (siftupLoop heap.length heap.length heap pos).2
    ((siftupLoop heap.length heap.length heap pos).1.set
      (siftupLoop heap.length heap.length heap pos).2 (heap.getD pos entD))
    (siftupLoop heap.length heap.length heap pos).2

/-- CPython `heapq.heappush(heap, item)`: append, then sift the new last
element up towards the root. -/
def heappush (heap : List Entry) (item : Entry) : List Entry :=
  siftdownLoop item 0 ((heap ++ [item]).length - 1) (heap ++ [item])
    ((heap ++ [item]).length - 1)

/-- CPython `heapq.heappop(heap)`: `none` when the heap is empty (Python would
raise `IndexError`; `dijkstra` only pops under the loop guard `while min_heap`,
so this branch is never taken there). -/
def heappop (heap : List Entry) : Option (Entry × List Entry) :=
  match heap.getLast? with
  | none => none
  | some lastelt =>
      if heap.dropLast.isEmpty then some (lastelt, [])
      else some (heap.dropLast.getD 0 entD, siftup (heap.dropLast.set 0 lastelt) 0)

/-! ### The coordinate labeler (`get_mapping`) -/

/-- The file letters of `get_mapping` (`'ABCDEFGH'`). -/
def filesStr : List Char := ['A', 'B', 'C', 'D', 'E', 'F', 'G', 'H']

/-- The rank digits of `get_mapping` (`'12345678'`). -/
def ranksStr : List Char := ['1', '2', '3', '4', '5', '6', '7', '8']

/-- `letters = [''.join(x) for x in product('ABCDEFGH', '12345678')]`. -/
def letters : List String :=
  (filesStr.map (fun a => ranksStr.map (fun b => String.mk [a, b]))).flatten

/-- The digits `'01234567'` converted through `int`. -/
def coordDigits : List Nat := [0, 1, 2, 3, 4, 5, 6, 7]

/-- `n = [(int(x), int(y)) for x, y in product('01234567', repeat=2)]`. -/
def coordList : List (Nat × Nat) :=
  (coordDigits.map (fun a => coordDigits.map (fun b => (a, b)))).flatten

/-- `get_mapping()`: the dict `{num: letter for letter, num in zip(letters, n)}`
from `(row, col)` coordinates to two-character labels. -/
def get_mapping : List ((Nat × Nat) × String) :=
  (letters.zip coordList).map (fun p => (p.2, p.1))

/-- Association lookup in `get_mapping` (plain dict access `mapping[(r, c)]`). -/
def mlookup : List ((Nat × Nat) × String) → Nat × Nat → Option String
  | [], _ => none
  | (k, v) :: rest, key => if k = key then some v else mlookup rest key

/-- `mapping[(row, col)]` as used by `build_knights_graph`; for every board
size `≤ 8` the key is present, so the default is never produced there. -/
def mlabel (p : Nat × Nat) : String := (mlookup get_mapping p).getD ""

/-! ### The board graph builder -/

/-- `add_edge(graph, vertex_a, vertex_b)` on the `defaultdict(dict)` built by
`build_knights_graph`: `graph[vertex_a].update({vertex_b: 1})` inserts an empty
inner dict for a missing key, then writes weight 1; likewise in the other
direction. -/
def ddUpdate (g : Graph) (a b : Node) : Graph :=
  match dlookup g a with
  | some nbrs => dset g a (dset nbrs b 1)
  | none => g ++ [(a, [(b, 1)])]

/-- `add_edge` adds the edge in both directions with weight 1. -/
def add_edge (g : Graph) (vertex_a vertex_b : Node) : Graph :=
  ddUpdate (ddUpdate g vertex_a vertex_b) vertex_b vertex_a

/-- `PERMITTED_MOVES`, in source order. -/
def PERMITTED_MOVES : List (Int × Int) :=
  [(-1, -2), (1, -2), (-2, -1), (2, -1), (-2, 1), (2, 1), (-1, 2), (1, 2)]

/-- `generate_permitted_moves_from(row, col, board_size)`: the knight moves
from `(row, col)` that stay on the board, in `PERMITTED_MOVES` order. -/
def generate_permitted_moves_from (row col board_size : Nat) : List (Nat × Nat) :=
  PERMITTED_MOVES.filterMap (fun mv =>
    let move_row : Int := (row : Int) + mv.1
    let move_col : Int := (col : Int) + mv.2
    if 0 ≤ move_row ∧ move_row < (board_size : Int) ∧
       0 ≤ move_col ∧ move_col < (board_size : Int)
    then some (move_row.toNat, move_col.toNat)
    else none)

/-- Innermost loop of `build_knights_graph`: add an edge for every permitted
knight move out of `(row, col)`. -/
def addMoves (board_size : Nat) (g : Graph) (row col : Nat) : Graph :=
  (generate_permitted_moves_from row col board_size).foldl
    (fun g mv => add_edge g (mlabel (row, col)) (mlabel mv)) g

/-- Middle loop of `build_knights_graph`: all columns of one row. -/
def addRowEdges (board_size : Nat) (g : Graph) (row : Nat) : Graph :=
  (List.range board_size).foldl (fun g col => addMoves board_size g row col) g

/-- `build_knights_graph(board_size)`: iterate the board in row-major order and
add an edge for every permitted knight move.  The starting `defaultdict(dict)`
is empty, so only squares that occur as an endpoint of some edge become keys. -/
def build_knights_graph (board_size : Nat) : Graph :=
  (List.range board_size).foldl (addRowEdges board_size) []

/-! ### The shortest-path engine (`dijkstra`) -/

/-- A `node_data` record: best-known cost and predecessor chain. -/
structure NData where
  cost : Int
  pred : List Node
  deriving Repr, DecidableEq

/-- The `node_data` dict. -/
abbrev NDList := List (Node × NData)

/-- `node_data = {k: {'cost': inf, 'pred': []} for k in graph}`. -/
def initND (g : Graph) : NDList :=
  g.map (fun kv => (kv.1, ⟨inf, []⟩))

/-- Result of a `dijkstra` run.  `keyError` embeds a Python `KeyError` escape;
`fuelOut` is the artifact of embedding the unbounded `while` loop with fuel
(never produced for sufficient fuel, see `dloop_no_fuelOut`). -/
inductive DRes where
  | ok : String → DRes
  | keyError : DRes
  | fuelOut : DRes
  deriving Repr, DecidableEq

/-- Result of the `while` loop itself: the final graph (a `defaultdict`, so a
read of a missing key would insert one) and the final `node_data`. -/
inductive LoopRes where
  | done : Graph → NDList → LoopRes
  | keyError : LoopRes
  | fuelOut : LoopRes
  deriving Repr, DecidableEq

/-- The inner `for j in neighbours` loop of `dijkstra`: relax each not-yet
visited neighbour `j` of `temp` and push `(node_data[j]['cost'], j)`.  The
lookups `node_data[temp]` / `node_data[j]` are plain dict accesses and fail
with `KeyError` on a missing key. -/
def relaxAll (temp : Node) (visited : List Node) :
    Nbrs → NDList → List Entry → Option (NDList × List Entry)
  | [], nd, heap => some (nd, heap)
  | (j, w) :: rest, nd, heap =>
      if j ∈ visited then relaxAll temp visited rest nd heap
      else
        match dlookup nd temp, dlookup nd j with
        | some ti, some ji =>
            let cost := ti.cost + w
            let nd' := if cost < ji.cost then dset nd j ⟨cost, ti.pred ++ [temp]⟩ else nd
            let jcost := if cost < ji.cost then cost else ji.cost
            relaxAll temp visited rest nd' (heappush heap (jcost, j))
        | _, _ => none

/-- The `while min_heap` loop of `dijkstra`, with fuel. -/
def dloop (src dst : Node) : Nat → Graph → NDList → List Node → List Entry → LoopRes
  | 0, _, _, _, _ => .fuelOut
  | fuel + 1, g, nd, visited, heap =>
      match heappop heap with
      | none => .done g nd
      | some ((_, temp), heap') =>
          if src = dst then .done g nd
          else if temp ∈ visited then dloop src dst fuel g nd visited heap'
          else
            let visited' := visited ++ [temp]
            match dlookup g temp with
            | none =>
                -- `graph[temp]` on the defaultdict: insert an empty dict,
                -- then `if not neighbours: continue`.
                dloop src dst fuel (g ++ [(temp, [])]) nd visited' heap'
            | some neighbours =>
                if neighbours.isEmpty then dloop src dst fuel g nd visited' heap'
                else
                  match relaxAll temp visited' neighbours nd heap' with
                  | none => .keyError
                  | some (nd2, heap2) => dloop src dst fuel g nd2 visited' heap2

/-- Total number of neighbour entries of the graph; bounds the number of heap
pushes a run can perform. -/
def totalDeg (g : Graph) : Nat := (g.map (fun kv => kv.2.length)).sum

/-- Fuel that always suffices for `dloop` (proved in `dloop_no_fuelOut`). -/
def enoughFuel (g : Graph) : Nat := 2 + totalDeg g

/-- `dijkstra(graph, src, dst)` with explicit fuel: initialise `node_data`,
set the source cost to 0 (`KeyError` if `src` is not a key), run the loop, and
join `node_data[dst]['pred'] + [dst]` (`KeyError` if `dst` is not a key). -/
def dijkstraWith (g : Graph) (src dst : Node) (fuel : Nat) : DRes :=
  match dlookup (initND g) src with
  | none => .keyError
  | some info =>
      let nd := dset (initND g) src ⟨0, info.pred⟩
      match dloop src dst fuel g nd [] [(0, src)] with
      | .done _ ndF =>
          match dlookup ndF dst with
          | none => .keyError
          | some infoD => .ok (joinSpace (infoD.pred ++ [dst]))
      | .keyError => .keyError
      | .fuelOut => .fuelOut

/-- `dijkstra(graph, src, dst)`. -/
def dijkstra (g : Graph) (src dst : Node) : DRes :=
  dijkstraWith g src dst (enoughFuel g)

/-! ### Paths, reachability and graph well-formedness checks -/

/-- Consecutive elements of the list are connected by graph edges. -/
def chainB (g : Graph) : List Node → Bool
  | [] => true
  | [_] => true
  | a :: b :: rest => (edgeW g a b).isSome && chainB g (b :: rest)

/-- `p` is a path from `src` to `dst`: nonempty, starts at `src`, ends at
`dst`, and steps only along edges of `g`. -/
def isPathB (g : Graph) (src dst : Node) (p : List Node) : Bool :=
  (p.head? == some src) && (p.getLast? == some dst) && chainB g p

/-- Total edge weight of a list of nodes (0 for a missing edge; under
`chainB` every edge is present). -/
def costB (g : Graph) : List Node → Int
  | a :: b :: rest => (edgeW g a b).getD 0 + costB g (b :: rest)
  | _ => 0

/-- `dst` is reachable from `src` in `g`. -/
def Reach (g : Graph) (src dst : Node) : Prop :=
  ∃ p, isPathB g src dst p = true

/-- All edge weights of the graph are nonnegative. -/
def nonnegB (g : Graph) : Bool :=
  g.all fun kv => kv.2.all fun bw => decide (0 ≤ bw.2)

/-- Every neighbour key of the graph is itself a node key. -/
def closedB (g : Graph) : Bool :=
  g.all fun kv => kv.2.all fun bw => (dlookup g bw.1).isSome

/-- No inner (neighbour) dict mentions a key twice; true of every Python
dict, which cannot hold duplicate keys. -/
def innerNodupB (g : Graph) : Bool :=
  g.all fun kv => decide (kv.2.map Prod.fst).Nodup

/-- Symmetry-with-weight-1 check used for the knight graphs. -/
def symCheck (g : Graph) : Bool :=
  g.all fun kv => kv.2.all fun bw =>
    decide (bw.2 = 1) && decide (edgeW g bw.1 kv.1 = some bw.2)

/-- The weighted reference graph of `test_main.test_dijkstra`, in source
order. -/
def test_graph : Graph :=
  [("A", [("B", 2), ("C", 4)]),
   ("B", [("A", 2), ("C", 3), ("D", 8)]),
   ("C", [("A", 4), ("B", 3), ("E", 5), ("D", 2)]),
   ("D", [("B", 8), ("C", 2), ("E", 11), ("F", 22)]),
   ("E", [("C", 5), ("D", 11), ("F", 1)]),
   ("F", [("D", 22), ("E", 1)])]

/-- Reverse association list of `get_mapping`: the (mathematical) inverse of
the coordinate-to-label mapping, from labels back to coordinates. -/
def inv_mapping : List (String × (Nat × Nat)) :=
  get_mapping.map (fun p => (p.2, p.1))

/-- Lookup in `inv_mapping`. -/
def ilookup : List (String × (Nat × Nat)) → String → Option (Nat × Nat)
  | [], _ => none
  | (k, v) :: rest, key => if k = key then some v else ilookup rest key

/-- The squares of the `N×N` board that have at least one legal knight move,
as labels in row-major order; these turn out to be exactly the node keys of
`build_knights_graph N`. -/
def movableLabels (board_size : Nat) : List String :=
  ((List.range board_size).map (fun row =>
    (List.range board_size).filterMap (fun col =>
      if generate_permitted_moves_from row col board_size = [] then none
      else some (mlabel (row, col))))).flatten

/-- The binary-heap shape invariant of `heapq`: every non-root element is not
smaller than its parent at `(i - 1) / 2`. -/
def heapInv (h : List Entry) : Prop :=
  ∀ i : Nat, (hi : i < h.length) → 0 < i →
    entLt (h.get ⟨i, hi⟩) (h.get ⟨(i - 1) / 2, by omega⟩) = false

/-- Hole invariant A: all parent-child pairs not involving the hole `pos` are
heap-ordered. -/
def holeInvA (h : List Entry) (pos : Nat) : Prop :=
  ∀ i : Nat, (hi : i < h.length) → 0 < i → i ≠ pos → (i - 1) / 2 ≠ pos →
    entLt (h.get ⟨i, hi⟩) (h.get ⟨(i - 1) / 2, by omega⟩) = false

/-- Hole invariant B: the children of the hole are not smaller than the item
to be placed. -/
def holeInvB (h : List Entry) (pos : Nat) (x : Entry) : Prop :=
  ∀ i : Nat, (hi : i < h.length) → (i - 1) / 2 = pos → 0 < i →
    entLt (h.get ⟨i, hi⟩) x = false

/-- Hole invariant C: the children of the hole are not smaller than the
hole's parent. -/
def holeInvC (h : List Entry) (pos : Nat) : Prop :=
  ∀ i : Nat, (hi : i < h.length) → (hpc : (i - 1) / 2 = pos) → (hiz : 0 < i) →
    (hpz : 0 < pos) →
    entLt (h.get ⟨i, hi⟩) (h.get ⟨(pos - 1) / 2, by omega⟩) = false

/-- Total neighbour-list length of the entries whose key is not yet visited;
bounds the number of pushes the loop can still perform. -/
def remDeg (g : Graph) (visited : List Node) : Nat :=
  ((g.filter (fun kv => decide (kv.1 ∉ visited))).map (fun kv => kv.2.length)).sum

/-- Termination potential of the `while` loop: strictly decreases on every
iteration. -/
def potential (g : Graph) (visited : List Node) (heap : List Entry) : Nat :=
  heap.length + remDeg g visited

/-- The graph as left behind by the `while` loop of a `dijkstra` call (the
argument `graph` is passed by reference in Python, so this is the object the
caller still holds); `none` when the run does not reach the path-building
line. -/
def dijkstraFinalGraph (g : Graph) (src dst : Node) : Option Graph :=
  match dlookup (initND g) src with
  | none => none
  | some info =>
      match dloop src dst (enoughFuel g) g
          (dset (initND g) src ⟨0, info.pred⟩) [] [(0, src)] with
      | .done gF _ => some gF
      | _ => none

/-- Symmetry invariant of the knight graphs: every present edge has weight 1
and is mirrored by the reverse edge. -/
def SymOne (g : Graph) : Prop :=
  ∀ a b w, edgeW g a b = some w → w = 1 ∧ edgeW g b a = some 1

end Knights

/-! ### Theorems -/

namespace Knights

/-- A successful dict lookup returns an entry of the list. -/
theorem dlookup_mem {α : Type} {d : List (Node × α)} {k : Node} {v : α}
    (h : dlookup d k = some v) : (k, v) ∈ d := by
  induction d with
  | nil => simp [dlookup] at h
  | cons kv rest ih =>
      obtain ⟨k', v'⟩ := kv
      simp only [dlookup] at h
      by_cases hk : k' = k
      · simp [hk] at h
        simp [hk, h]
      · simp [hk] at h
        exact List.mem_cons_of_mem _ (ih h)

/-- A dict lookup succeeds exactly on the keys. -/
theorem dlookup_isSome_iff {α : Type} (d : List (Node × α)) (k : Node) :
    (dlookup d k).isSome ↔ k ∈ dkeys d := by
  induction d with
  | nil => simp [dlookup, dkeys]
  | cons kv rest ih =>
      obtain ⟨k', v'⟩ := kv
      rw [show dkeys ((k', v') :: rest) = k' :: dkeys rest from rfl]
      by_cases hk : k' = k
      · simp [dlookup, hk]
      · simp [dlookup, hk, Ne.symm hk, ih]

/-- Looking up the key just written. -/
theorem dlookup_dset_self {α : Type} (d : List (Node × α)) (k : Node) (v : α) :
    dlookup (dset d k v) k = some v := by
  induction d with
  | nil => simp [dset, dlookup]
  | cons kv rest ih =>
      obtain ⟨k', v'⟩ := kv
      simp only [dset]
      by_cases hk : k' = k
      · simp [hk, dlookup]
      · simp [hk, dlookup, ih]

/-- Writing one key leaves lookups of other keys unchanged. -/
theorem dlookup_dset_ne {α : Type} (d : List (Node × α)) {k k' : Node} (v : α)
    (h : k' ≠ k) : dlookup (dset d k v) k' = dlookup d k' := by
  induction d with
  | nil => simp [dset, dlookup, Ne.symm h]
  | cons kv rest ih =>
      obtain ⟨k'', v''⟩ := kv
      simp only [dset]
      by_cases hk : k'' = k
      · subst hk
        simp [dlookup, Ne.symm h]
      · simp only [if_neg hk, dlookup]
        by_cases hk' : k'' = k'
        · simp [hk']
        · simp [hk', ih]

/-- `dset` never removes keys, and adds at most the written key. -/
theorem dkeys_dset {α : Type} (d : List (Node × α)) (k : Node) (v : α) :
    dkeys (dset d k v) = if k ∈ dkeys d then dkeys d else dkeys d ++ [k] := by
  induction d with
  | nil => simp [dset, dkeys]
  | cons kv rest ih =>
      obtain ⟨k', v'⟩ := kv
      simp only [dset, dkeys, List.map_cons]
      by_cases hk : k' = k
      · simp [hk, dkeys]
      · simp only [if_neg hk, List.map_cons]
        rw [dkeys] at ih
        by_cases hmem : k ∈ List.map Prod.fst rest
        · simp [hmem, Ne.symm hk, ih, dkeys]
        · simp [hmem, Ne.symm hk, ih, dkeys]

/-- Keys of `node_data` are the keys of the graph. -/
theorem dkeys_initND (g : Graph) : dkeys (initND g) = dkeys g := by
  simp [dkeys, initND]

/-- `node_data` initialises every graph key to `(inf, [])`. -/
theorem dlookup_initND (g : Graph) (k : Node) :
    dlookup (initND g) k = (dlookup g k).map (fun _ => (⟨inf, []⟩ : NData)) := by
  induction g with
  | nil => simp [initND, dlookup]
  | cons kv rest ih =>
      obtain ⟨k', v'⟩ := kv
      simp only [initND, List.map_cons, dlookup]
      by_cases hk : k' = k
      · simp [hk]
      · simpa [hk, initND] using ih

/-- Appending an entry with a fresh key does not change other lookups. -/
theorem dlookup_append_ne {α : Type} (d : List (Node × α)) {k a : Node} (v : α)
    (hne : a ≠ k) : dlookup (d ++ [(a, v)]) k = dlookup d k := by
  induction d with
  | nil => simp [dlookup, hne]
  | cons kv rest ih =>
      obtain ⟨k', v'⟩ := kv
      by_cases hk : k' = k
      · simp [dlookup, hk]
      · simp [dlookup, hk, ih]

/-- Appending an entry with a key absent from the list makes it found. -/
theorem dlookup_append_self {α : Type} (d : List (Node × α)) {a : Node} (v : α)
    (habs : dlookup d a = none) : dlookup (d ++ [(a, v)]) a = some v := by
  induction d with
  | nil => simp [dlookup]
  | cons kv rest ih =>
      obtain ⟨k', v'⟩ := kv
      by_cases hk : k' = a
      · simp [dlookup, hk] at habs
      · simp only [dlookup, if_neg hk] at habs
        simp [dlookup, hk, ih habs]

/-- Effect of `graph[a].update({b: 1})` on edge lookups. -/
theorem edgeW_ddUpdate (g : Graph) (a b x y : Node) :
    edgeW (ddUpdate g a b) x y =
      if x = a ∧ y = b then some 1 else edgeW g x y := by
  unfold ddUpdate
  cases h : dlookup g a with
  | some nbrs =>
      by_cases hx : x = a
      · subst hx
        by_cases hy : y = b
        · subst hy
          simp [edgeW, dlookup_dset_self, dlookup_dset_self]
        · simp [edgeW, dlookup_dset_self, dlookup_dset_ne _ _ hy, hy, h]
      · simp [edgeW, dlookup_dset_ne _ _ hx, hx]
  | none =>
      by_cases hx : x = a
      · subst hx
        rw [edgeW, dlookup_append_self g _ h]
        by_cases hy : y = b
        · simp [hy, dlookup]
        · simp [edgeW, hy, Ne.symm hy, dlookup, h]
      · simp [edgeW, dlookup_append_ne g _ (Ne.symm hx), hx]

/-- Effect of `add_edge` on edge lookups: both directions get weight 1,
everything else is unchanged. -/
theorem edgeW_add_edge (g : Graph) (a b x y : Node) :
    edgeW (add_edge g a b) x y =
      if (x = a ∧ y = b) ∨ (x = b ∧ y = a) then some 1 else edgeW g x y := by
  unfold add_edge
  rw [edgeW_ddUpdate, edgeW_ddUpdate]
  by_cases h1 : x = b ∧ y = a
  · simp [h1]
  · by_cases h2 : x = a ∧ y = b
    · simp [h1, h2]
    · simp [h1, h2]

/-- `add_edge` preserves the symmetry invariant. -/
theorem symOne_add_edge {g : Graph} (hg : SymOne g) (a b : Node) :
    SymOne (add_edge g a b) := by
  intro x y w hxy
  rw [edgeW_add_edge] at hxy
  rw [edgeW_add_edge]
  by_cases hc : (x = a ∧ y = b) ∨ (x = b ∧ y = a)
  · simp only [if_pos hc] at hxy
    obtain rfl : w = 1 := by simpa using hxy.symm
    refine ⟨rfl, ?_⟩
    rcases hc with ⟨rfl, rfl⟩ | ⟨rfl, rfl⟩ <;> simp
  · simp only [if_neg hc] at hxy
    obtain ⟨hw, hrev⟩ := hg x y w hxy
    refine ⟨hw, ?_⟩
    by_cases hc' : (y = a ∧ x = b) ∨ (y = b ∧ x = a)
    · simp [hc']
    · simp [hc', hrev]

/-- Folding `add_edge` over any move list preserves the symmetry invariant. -/
theorem symOne_foldMoves (a : Node) :
    ∀ (l : List (Nat × Nat)) (g : Graph), SymOne g →
      SymOne (List.foldl (fun g mv => add_edge g a (mlabel mv)) g l)
  | [], _, hg => hg
  | _ :: rest, g, hg => symOne_foldMoves a rest _ (symOne_add_edge hg _ _)

/-- Folding `addMoves` over any column list preserves the symmetry invariant. -/
theorem symOne_foldCols (bs row : Nat) :
    ∀ (l : List Nat) (g : Graph), SymOne g →
      SymOne (List.foldl (fun g col => addMoves bs g row col) g l)
  | [], _, hg => hg
  | _ :: rest, g, hg =>
      symOne_foldCols bs row rest _ (symOne_foldMoves _ _ _ hg)

/-- Folding `addRowEdges` over any row list preserves the symmetry invariant. -/
theorem symOne_foldRows (bs : Nat) :
    ∀ (l : List Nat) (g : Graph), SymOne g →
      SymOne (List.foldl (addRowEdges bs) g l)
  | [], _, hg => hg
  | _ :: rest, g, hg =>
      symOne_foldRows bs rest _ (symOne_foldCols _ _ _ _ hg)

/-- The knight graph of any board size satisfies the symmetry invariant. -/
theorem symOne_build (board_size : Nat) : SymOne (build_knights_graph board_size) := by
  unfold build_knights_graph
  refine symOne_foldRows _ _ _ ?_
  intro a b w h
  simp [edgeW, dlookup] at h

/-- C6: for every board size `1 ≤ N ≤ 8` the knight graph is symmetric — `A`'s
neighbour dict contains `B` with weight `w` iff `B`'s contains `A` with the
same weight — and every edge weight equals 1. -/
theorem knights_graph_symmetric (N : Nat) (h1 : 1 ≤ N) (h8 : N ≤ 8) (a b : Node) (w : Int) :
    (edgeW (build_knights_graph N) a b = some w ↔
      edgeW (build_knights_graph N) b a = some w) ∧
    (edgeW (build_knights_graph N) a b = some w → w = 1) := by
  have hs := symOne_build N
  constructor
  · constructor
    · intro h
      obtain ⟨hw, hrev⟩ := hs a b w h
      rwa [hw]
    · intro h
      obtain ⟨hw, hrev⟩ := hs b a w h
      rwa [hw]
  · intro h
    exact (hs a b w h).1

/-- Witness for C6 at a concrete instance: the edge `A1 → B3` of the 3×3
knight graph. -/
theorem knights_graph_symmetric_witness :
    (edgeW (build_knights_graph 3) "A1" "B3" = some 1 ↔
      edgeW (build_knights_graph 3) "B3" "A1" = some 1) ∧
    (edgeW (build_knights_graph 3) "A1" "B3" = some 1 → (1 : Int) = 1) :=
  knights_graph_symmetric 3 (by decide) (by decide) "A1" "B3" 1

/-- A permitted move target lies on the board. -/
theorem moves_target_bounds {r c bs : Nat} {mv : Nat × Nat}
    (h : mv ∈ generate_permitted_moves_from r c bs) : mv.1 < bs ∧ mv.2 < bs := by
  unfold generate_permitted_moves_from at h
  rw [List.mem_filterMap] at h
  obtain ⟨o, _, heq⟩ := h
  dsimp only at heq
  split_ifs at heq with hc
  rw [Option.some.injEq] at heq
  subst heq
  exact ⟨by omega, by omega⟩

/-- Knight moves are reversible: if `(r', c')` is a permitted move from an
on-board square `(r, c)`, then `(r, c)` is a permitted move from `(r', c')`. -/
theorem moves_symm {r c r' c' bs : Nat} (hr : r < bs) (hc : c < bs)
    (h : (r', c') ∈ generate_permitted_moves_from r c bs) :
    (r, c) ∈ generate_permitted_moves_from r' c' bs := by
  unfold generate_permitted_moves_from at h ⊢
  rw [List.mem_filterMap] at h ⊢
  obtain ⟨mv, hmv, heq⟩ := h
  have hneg : (-mv.1, -mv.2) ∈ PERMITTED_MOVES := by fin_cases hmv <;> decide
  refine ⟨(-mv.1, -mv.2), hneg, ?_⟩
  dsimp only at heq ⊢
  split_ifs at heq with hcond
  rw [Option.some.injEq, Prod.mk.injEq] at heq
  obtain ⟨hr', hc'⟩ := heq
  subst hr'
  subst hc'
  rw [if_pos (by constructor <;> omega)]
  rw [Option.some.injEq, Prod.mk.injEq]
  constructor <;> omega

/-- Key membership after `graph[a].update({b: 1})`. -/
theorem mem_dkeys_ddUpdate (g : Graph) (a b x : Node) :
    x ∈ dkeys (ddUpdate g a b) ↔ x ∈ dkeys g ∨ x = a := by
  unfold ddUpdate
  cases h : dlookup g a with
  | some nbrs =>
      have ha : a ∈ dkeys g := (dlookup_isSome_iff g a).mp (by simp [h])
      rw [dkeys_dset, if_pos ha]
      constructor
      · exact Or.inl
      · rintro (hx | rfl)
        · exact hx
        · exact ha
  | none =>
      have : dkeys (g ++ [(a, [(b, 1)])]) = dkeys g ++ [a] := by simp [dkeys]
      rw [this]
      simp

/-- Key membership after `add_edge`. -/
theorem mem_dkeys_add_edge (g : Graph) (a b x : Node) :
    x ∈ dkeys (add_edge g a b) ↔ x ∈ dkeys g ∨ x = a ∨ x = b := by
  unfold add_edge
  rw [mem_dkeys_ddUpdate, mem_dkeys_ddUpdate]
  tauto

/-- Characterisation of membership in `movableLabels`. -/
theorem mem_movableLabels {N : Nat} {lab : String} :
    lab ∈ movableLabels N ↔
      ∃ row col, row < N ∧ col < N ∧
        generate_permitted_moves_from row col N ≠ [] ∧ lab = mlabel (row, col) := by
  unfold movableLabels
  rw [List.mem_flatten]
  constructor
  · rintro ⟨l, hl, hlab⟩
    rw [List.mem_map] at hl
    obtain ⟨row, hrow, rfl⟩ := hl
    rw [List.mem_filterMap] at hlab
    obtain ⟨col, hcol, heq⟩ := hlab
    rw [List.mem_range] at hrow hcol
    by_cases hne : generate_permitted_moves_from row col N = []
    · rw [if_pos hne] at heq
      exact absurd heq (by simp)
    · rw [if_neg hne, Option.some.injEq] at heq
      exact ⟨row, col, hrow, hcol, hne, heq.symm⟩
  · rintro ⟨row, col, hrow, hcol, hne, rfl⟩
    refine ⟨_, List.mem_map.mpr ⟨row, List.mem_range.mpr hrow, rfl⟩, ?_⟩
    rw [List.mem_filterMap]
    exact ⟨col, List.mem_range.mpr hcol, by rw [if_neg hne]⟩

/-- Both endpoint labels of an added knight edge are movable squares. -/
theorem add_edge_endpoints_movable {N row col : Nat} {mv : Nat × Nat}
    (hrow : row < N) (hcol : col < N)
    (hmv : mv ∈ generate_permitted_moves_from row col N) :
    mlabel (row, col) ∈ movableLabels N ∧ mlabel mv ∈ movableLabels N := by
  constructor
  · exact mem_movableLabels.mpr
      ⟨row, col, hrow, hcol, by intro h; rw [h] at hmv; exact absurd hmv (by simp), rfl⟩
  · obtain ⟨h1, h2⟩ := moves_target_bounds hmv
    have hsym : (row, col) ∈ generate_permitted_moves_from mv.1 mv.2 N :=
      moves_symm hrow hcol (by simpa using hmv)
    have : mlabel (mv.1, mv.2) ∈ movableLabels N := mem_movableLabels.mpr
      ⟨mv.1, mv.2, h1, h2, by intro h; rw [h] at hsym; exact absurd hsym (by simp), rfl⟩
    simpa using this

/-- Keys stay movable along the innermost fold. -/
theorem keys_sub_foldMoves {N row col : Nat} (hrow : row < N) (hcol : col < N) :
    ∀ (l : List (Nat × Nat)), (∀ mv ∈ l, mv ∈ generate_permitted_moves_from row col N) →
      ∀ (g : Graph), (∀ x ∈ dkeys g, x ∈ movableLabels N) →
      ∀ x ∈ dkeys (List.foldl (fun g mv => add_edge g (mlabel (row, col)) (mlabel mv)) g l),
        x ∈ movableLabels N
  | [], _, _, hg => hg
  | mv :: rest, hl, g, hg => by
      rw [List.foldl_cons]
      refine keys_sub_foldMoves hrow hcol rest
        (fun m hm => hl m (List.mem_cons_of_mem _ hm)) _ ?_
      intro x hx
      rw [mem_dkeys_add_edge] at hx
      obtain ⟨hma, hmb⟩ :=
        add_edge_endpoints_movable hrow hcol (hl mv (List.mem_cons_self _ _))
      rcases hx with hx | rfl | rfl
      · exact hg x hx
      · exact hma
      · exact hmb

/-- Keys stay movable along the column fold. -/
theorem keys_sub_foldCols {N row : Nat} (hrow : row < N) :
    ∀ (l : List Nat), (∀ c ∈ l, c < N) →
      ∀ (g : Graph), (∀ x ∈ dkeys g, x ∈ movableLabels N) →
      ∀ x ∈ dkeys (List.foldl (fun g col => addMoves N g row col) g l),
        x ∈ movableLabels N
  | [], _, _, hg => hg
  | c :: rest, hl, g, hg => by
      rw [List.foldl_cons]
      refine keys_sub_foldCols hrow rest
        (fun m hm => hl m (List.mem_cons_of_mem _ hm)) _ ?_
      unfold addMoves
      exact keys_sub_foldMoves hrow (hl c (List.mem_cons_self _ _)) _
        (fun m hm => hm) g hg

/-- Keys stay movable along the row fold. -/
theorem keys_sub_foldRows {N : Nat} :
    ∀ (l : List Nat), (∀ r ∈ l, r < N) →
      ∀ (g : Graph), (∀ x ∈ dkeys g, x ∈ movableLabels N) →
      ∀ x ∈ dkeys (List.foldl (addRowEdges N) g l), x ∈ movableLabels N
  | [], _, _, hg => hg
  | r :: rest, hl, g, hg => by
      rw [List.foldl_cons]
      refine keys_sub_foldRows rest
        (fun m hm => hl m (List.mem_cons_of_mem _ hm)) _ ?_
      unfold addRowEdges
      exact keys_sub_foldCols (hl r (List.mem_cons_self _ _)) _
        (fun c hc => (List.mem_range.mp hc)) g hg

/-- Every key of the built knight graph labels a square with at least one
legal move. -/
theorem keys_build_sub (N : Nat) :
    ∀ x ∈ dkeys (build_knights_graph N), x ∈ movableLabels N := by
  unfold build_knights_graph
  exact keys_sub_foldRows _ (fun r hr => List.mem_range.mp hr) _
    (by intro x hx; simp [dkeys] at hx)

/-- Keys only grow along the innermost fold. -/
theorem keys_mono_foldMoves (a x : Node) :
    ∀ (l : List (Nat × Nat)) (g : Graph), x ∈ dkeys g →
      x ∈ dkeys (List.foldl (fun g mv => add_edge g a (mlabel mv)) g l)
  | [], _, hg => hg
  | _ :: rest, g, hg =>
      keys_mono_foldMoves a x rest _ ((mem_dkeys_add_edge _ _ _ _).mpr (Or.inl hg))

/-- Keys only grow along the column fold. -/
theorem keys_mono_foldCols (bs row : Nat) (x : Node) :
    ∀ (l : List Nat) (g : Graph), x ∈ dkeys g →
      x ∈ dkeys (List.foldl (fun g col => addMoves bs g row col) g l)
  | [], _, hg => hg
  | _ :: rest, g, hg =>
      keys_mono_foldCols bs row x rest _ (keys_mono_foldMoves _ _ _ _ hg)

/-- Keys only grow along the row fold. -/
theorem keys_mono_foldRows (bs : Nat) (x : Node) :
    ∀ (l : List Nat) (g : Graph), x ∈ dkeys g →
      x ∈ dkeys (List.foldl (addRowEdges bs) g l)
  | [], _, hg => hg
  | _ :: rest, g, hg =>
      keys_mono_foldRows bs x rest _ (keys_mono_foldCols _ _ _ _ _ hg)

/-- A movable square becomes a key as soon as its own moves are added. -/
theorem mem_keys_addMoves_self (bs : Nat) (g : Graph) (row col : Nat)
    (hne : generate_permitted_moves_from row col bs ≠ []) :
    mlabel (row, col) ∈ dkeys (addMoves bs g row col) := by
  unfold addMoves
  obtain ⟨mv, rest, hmoves⟩ : ∃ mv rest,
      generate_permitted_moves_from row col bs = mv :: rest := by
    cases h : generate_permitted_moves_from row col bs with
    | nil => exact absurd h hne
    | cons a l => exact ⟨a, l, rfl⟩
  rw [hmoves, List.foldl_cons]
  exact keys_mono_foldMoves _ _ rest _
    ((mem_dkeys_add_edge _ _ _ _).mpr (Or.inr (Or.inl rfl)))

/-- Every movable square of the board is a key of the built graph. -/
theorem keys_build_sup (N : Nat) :
    ∀ x ∈ movableLabels N, x ∈ dkeys (build_knights_graph N) := by
  intro x hx
  obtain ⟨row, col, hrow, hcol, hne, rfl⟩ := mem_movableLabels.mp hx
  unfold build_knights_graph
  obtain ⟨l1, l2, hsplit⟩ := List.append_of_mem (List.mem_range.mpr hrow)
  rw [hsplit, List.foldl_append, List.foldl_cons]
  apply keys_mono_foldRows
  show mlabel (row, col) ∈ dkeys (addRowEdges N _ row)
  unfold addRowEdges
  obtain ⟨m1, m2, hsplit2⟩ := List.append_of_mem (List.mem_range.mpr hcol)
  rw [hsplit2, List.foldl_append, List.foldl_cons]
  apply keys_mono_foldCols
  exact mem_keys_addMoves_self N _ row col hne

/-- C1 (amended): for `1 ≤ N ≤ 8` the node keys of `build_knights_graph N`
are exactly the labels of the squares that have at least one legal knight
move; a square with no legal move (such as `B2` on the 3×3 board) is not a
node key at all. -/
theorem knights_graph_keys (N : Nat) (h1 : 1 ≤ N) (h8 : N ≤ 8) (lab : Node) :
    lab ∈ dkeys (build_knights_graph N) ↔ lab ∈ movableLabels N :=
  ⟨keys_build_sub N lab, keys_build_sup N lab⟩

/-- Witness for C1: on the 3×3 board, `A1` is movable and is a key. -/
theorem knights_graph_keys_witness :
    "A1" ∈ dkeys (build_knights_graph 3) ↔ "A1" ∈ movableLabels 3 :=
  knights_graph_keys 3 (by decide) (by decide) "A1"

/-- Counterexample to C1 as stated: `N = 3` is a valid board size, `B2` is one
of the `N²` square labels of the 3×3 board, yet it is not a node key of
`build_knights_graph 3` (it has no legal knight move). -/
theorem knights_graph_missing_node :
    (1 ≤ 3 ∧ 3 ≤ 8) ∧ mlabel (1, 1) = "B2" ∧
      "B2" ∉ dkeys (build_knights_graph 3) := by decide

/-! #### Content and length of the heapq operations -/

/-- Writing position `j` exchanges the old element for the new one, as
multisets. -/
theorem ms_set {α : Type} (l : List α) (j : Nat) (a : α) (hj : j < l.length) :
    (l.get ⟨j, hj⟩) ::ₘ ((l.set j a : List α) : Multiset α) = a ::ₘ (l : Multiset α) := by
  induction l generalizing j with
  | nil => simp at hj
  | cons x xs ih =>
      cases j with
      | zero =>
          show x ::ₘ (a ::ₘ (xs : Multiset α)) = a ::ₘ (x ::ₘ (xs : Multiset α))
          exact Multiset.cons_swap x a _
      | succ n =>
          have hn : n < xs.length := by simpa using hj
          show (xs.get ⟨n, hn⟩) ::ₘ (x ::ₘ ((xs.set n a : List α) : Multiset α)) =
            a ::ₘ (x ::ₘ (xs : Multiset α))
          rw [Multiset.cons_swap, ih n hn, Multiset.cons_swap]

/-- Double-write exchange: writing `l[j]` at `i` and then `b` at `j` has the
same content as writing `b` at `i`. -/
theorem ms_set_set {α : Type} (l : List α) (i j : Nat) (hi : i < l.length)
    (hj : j < l.length) (hne : i ≠ j) (b : α) :
    (((l.set i (l.get ⟨j, hj⟩)).set j b : List α) : Multiset α) =
      ((l.set i b : List α) : Multiset α) := by
  have hj' : j < (l.set i (l.get ⟨j, hj⟩)).length := by simpa using hj
  have hget : (l.set i (l.get ⟨j, hj⟩)).get ⟨j, hj'⟩ = l.get ⟨j, hj⟩ := by
    simp only [List.get_eq_getElem]
    exact List.getElem_set_ne (by omega) ..
  have e1 := ms_set (l.set i (l.get ⟨j, hj⟩)) j b hj'
  rw [hget] at e1
  have e2 := ms_set l i (l.get ⟨j, hj⟩) hi
  have e3 := ms_set l i b hi
  have key : (l.get ⟨j, hj⟩) ::ₘ (l.get ⟨i, hi⟩) ::ₘ
      (((l.set i (l.get ⟨j, hj⟩)).set j b : List α) : Multiset α) =
      (l.get ⟨j, hj⟩) ::ₘ (l.get ⟨i, hi⟩) ::ₘ ((l.set i b : List α) : Multiset α) := by
    calc (l.get ⟨j, hj⟩) ::ₘ (l.get ⟨i, hi⟩) ::ₘ
        (((l.set i (l.get ⟨j, hj⟩)).set j b : List α) : Multiset α)
        = (l.get ⟨i, hi⟩) ::ₘ (l.get ⟨j, hj⟩) ::ₘ
            (((l.set i (l.get ⟨j, hj⟩)).set j b : List α) : Multiset α) :=
          Multiset.cons_swap _ _ _
      _ = (l.get ⟨i, hi⟩) ::ₘ b ::ₘ ((l.set i (l.get ⟨j, hj⟩) : List α) : Multiset α) := by
          rw [e1]
      _ = b ::ₘ (l.get ⟨i, hi⟩) ::ₘ ((l.set i (l.get ⟨j, hj⟩) : List α) : Multiset α) :=
          Multiset.cons_swap _ _ _
      _ = b ::ₘ (l.get ⟨j, hj⟩) ::ₘ (l : Multiset α) := by rw [e2]
      _ = (l.get ⟨j, hj⟩) ::ₘ b ::ₘ (l : Multiset α) := Multiset.cons_swap _ _ _
      _ = (l.get ⟨j, hj⟩) ::ₘ (l.get ⟨i, hi⟩) ::ₘ ((l.set i b : List α) : Multiset α) := by
          rw [e3]
  exact (Multiset.cons_inj_right _).mp ((Multiset.cons_inj_right _).mp key)

/-- `siftdownLoop` preserves the length. -/
theorem siftdownLoop_length (x : Entry) (s : Nat) :
    ∀ (fuel : Nat) (h : List Entry) (pos : Nat),
      (siftdownLoop x s fuel h pos).length = h.length
  | 0, h, pos => by simp [siftdownLoop]
  | fuel + 1, h, pos => by
      rw [siftdownLoop]
      split
      · split
        · rw [siftdownLoop_length x s fuel]
          simp
        · simp
      · simp

/-- `siftdownLoop` writes `newitem` into the hole: as a multiset the result is
the input with the hole position overwritten. -/
theorem ms_siftdownLoop (x : Entry) (s : Nat) :
    ∀ (fuel : Nat) (h : List Entry) (pos : Nat), pos < h.length →
      ((siftdownLoop x s fuel h pos : List Entry) : Multiset Entry) =
        ((h.set pos x : List Entry) : Multiset Entry)
  | 0, h, pos, _ => by simp [siftdownLoop]
  | fuel + 1, h, pos, hpos => by
      rw [siftdownLoop]
      split
      · next hs =>
        split
        · next hlt =>
          have hpar : (pos - 1) / 2 < h.length := by omega
          have hparlen : (pos - 1) / 2 <
              (h.set pos (h.getD ((pos - 1) / 2) entD)).length := by
            simpa using hpar
          rw [ms_siftdownLoop x s fuel _ _ hparlen]
          have hgd : h.getD ((pos - 1) / 2) entD = h.get ⟨(pos - 1) / 2, hpar⟩ := by
            rw [List.getD_eq_getElem h entD hpar, List.get_eq_getElem]
          rw [hgd]
          exact ms_set_set h pos ((pos - 1) / 2) hpos hpar (by omega) x
        · rfl
      · rfl

/-- The chosen child position is in range and below the parent. -/
theorem childIdx_bounds (h : List Entry) (endpos pos : Nat)
    (hc : 2 * pos + 1 < endpos) :
    childIdx h endpos pos < endpos ∧ pos < childIdx h endpos pos := by
  unfold childIdx
  split
  · next hcond =>
    have := (Bool.and_eq_true _ _).mp hcond
    exact ⟨of_decide_eq_true this.1, by omega⟩
  · exact ⟨hc, by omega⟩

/-- `siftupLoop` keeps the length, keeps the hole in range, and as a multiset
only moves the hole. -/
theorem siftupLoop_spec (endpos : Nat) :
    ∀ (fuel : Nat) (h : List Entry) (pos : Nat), endpos = h.length → pos < endpos →
      (siftupLoop endpos fuel h pos).1.length = h.length ∧
      (siftupLoop endpos fuel h pos).2 < endpos ∧
      ∀ (x : Entry),
        (((siftupLoop endpos fuel h pos).1.set (siftupLoop endpos fuel h pos).2 x :
            List Entry) : Multiset Entry) = ((h.set pos x : List Entry) : Multiset Entry)
  | 0, _, pos, _, hpos => ⟨rfl, hpos, fun _ => rfl⟩
  | fuel + 1, h, pos, hlen, hpos => by
      rw [siftupLoop]
      split
      · next hchild =>
        obtain ⟨hcpb, hcpg⟩ := childIdx_bounds h endpos pos hchild
        have hcpl : childIdx h endpos pos < h.length := by omega
        have hlen2 : endpos = (h.set pos (h.getD (childIdx h endpos pos) entD)).length := by
          simpa using hlen
        obtain ⟨l1, l2, l3⟩ := siftupLoop_spec endpos fuel
          (h.set pos (h.getD (childIdx h endpos pos) entD)) (childIdx h endpos pos)
          hlen2 hcpb
        refine ⟨by rw [l1]; simp, l2, fun x => ?_⟩
        rw [l3 x]
        have hgd : h.getD (childIdx h endpos pos) entD = h.get ⟨childIdx h endpos pos, hcpl⟩ := by
          rw [List.getD_eq_getElem h entD hcpl, List.get_eq_getElem]
        rw [hgd]
        exact ms_set_set h pos (childIdx h endpos pos) (by omega) hcpl (by omega) x
      · exact ⟨rfl, hpos, fun _ => rfl⟩

/-- `siftup` at the root preserves content and length. -/
theorem ms_siftup (h : List Entry) (hne : 0 < h.length) :
    ((siftup h 0 : List Entry) : Multiset Entry) = (h : Multiset Entry) ∧
      (siftup h 0).length = h.length := by
  unfold siftup
  obtain ⟨l1, l2, l3⟩ := siftupLoop_spec h.length h.length h 0 rfl hne
  have hlast : (siftupLoop h.length h.length h 0).2 <
      ((siftupLoop h.length h.length h 0).1.set (siftupLoop h.length h.length h 0).2
        (h.getD 0 entD)).length := by
    rw [List.length_set, l1]; omega
  constructor
  · rw [ms_siftdownLoop _ _ _ _ _ hlast]
    rw [List.set_set]
    rw [l3 (h.getD 0 entD)]
    have hgd : h.getD 0 entD = h.get ⟨0, hne⟩ := by
      rw [List.getD_eq_getElem h entD hne, List.get_eq_getElem]
    rw [hgd]
    exact (Multiset.cons_inj_right _).mp (ms_set h 0 (h.get ⟨0, hne⟩) hne)
  · rw [siftdownLoop_length, List.length_set, l1]

/-- `heappush` adds exactly the pushed entry. -/
theorem ms_heappush (h : List Entry) (x : Entry) :
    ((heappush h x : List Entry) : Multiset Entry) = x ::ₘ (h : Multiset Entry) ∧
      (heappush h x).length = h.length + 1 := by
  unfold heappush
  have hpos : h.length < (h ++ [x]).length := by simp
  have hidx : (h ++ [x]).length - 1 = h.length := by simp
  rw [hidx]
  constructor
  · rw [ms_siftdownLoop _ _ _ _ _ hpos]
    have hget : (h ++ [x]).get ⟨h.length, hpos⟩ = x := by
      simp
    have hms := ms_set (h ++ [x]) h.length x hpos
    rw [hget] at hms
    have h2 := (Multiset.cons_inj_right x).mp hms
    rw [h2]
    show (h : Multiset Entry) + (x ::ₘ 0) = x ::ₘ (h : Multiset Entry)
    rw [Multiset.add_cons, add_zero]
  · rw [siftdownLoop_length]
    simp

/-- `heappop` succeeds on every nonempty heap. -/
theorem heappop_ne_none (h : List Entry) (hne : h ≠ []) : heappop h ≠ none := by
  unfold heappop
  rw [List.getLast?_eq_getLast h hne]
  dsimp only
  split <;> simp

/-- `heappop` fails exactly on the empty heap. -/
theorem heappop_none_iff (h : List Entry) : heappop h = none ↔ h = [] := by
  constructor
  · intro hc
    by_contra hne
    exact heappop_ne_none h hne hc
  · intro hc
    subst hc
    rfl

/-- `heappop` removes exactly the returned (root) entry. -/
theorem ms_heappop {h : List Entry} {e : Entry} {h' : List Entry}
    (hp : heappop h = some (e, h')) :
    (h : Multiset Entry) = e ::ₘ (h' : Multiset Entry) ∧ h'.length + 1 = h.length := by
  have hne : h ≠ [] := by
    intro hc
    subst hc
    simp [heappop] at hp
  unfold heappop at hp
  rw [List.getLast?_eq_getLast h hne] at hp
  dsimp only at hp
  by_cases hrest : h.dropLast.isEmpty
  · rw [if_pos hrest, Option.some.injEq, Prod.mk.injEq] at hp
    obtain ⟨he, hh⟩ := hp
    subst he
    subst hh
    rw [List.isEmpty_iff] at hrest
    have hlist : h = [h.getLast hne] := by
      have hd := List.dropLast_append_getLast hne
      rw [hrest] at hd
      simpa using hd.symm
    constructor
    · conv_lhs => rw [hlist]
      rfl
    · conv_rhs => rw [hlist]
      rfl
  · rw [if_neg hrest, Option.some.injEq, Prod.mk.injEq] at hp
    obtain ⟨he, hh⟩ := hp
    subst he
    subst hh
    rw [List.isEmpty_iff] at hrest
    have hrl : 0 < h.dropLast.length := List.length_pos.mpr hrest
    have hrl2 : 0 < (h.dropLast.set 0 (h.getLast hne)).length := by simpa using hrl
    obtain ⟨hms, hlen⟩ := ms_siftup (h.dropLast.set 0 (h.getLast hne)) hrl2
    constructor
    · have hgd : h.dropLast.getD 0 entD = h.dropLast.get ⟨0, hrl⟩ := by
        rw [List.getD_eq_getElem _ entD hrl, List.get_eq_getElem]
      rw [hgd, hms]
      have e1 := ms_set h.dropLast 0 (h.getLast hne) hrl
      have hsplit : (h : Multiset Entry) =
          ((h.dropLast : List Entry) : Multiset Entry) + ((h.getLast hne) ::ₘ 0) := by
        conv_lhs => rw [show h = h.dropLast ++ [h.getLast hne] from
          (List.dropLast_append_getLast hne).symm]
        rfl
      rw [hsplit, Multiset.add_cons, add_zero]
      rw [e1.symm]
    · rw [hlen, List.length_set, List.length_dropLast]
      have hpos : 0 < h.length := List.length_pos.mpr hne
      omega

/-! #### The entry order is a strict total order -/

/-- `strLt` is irreflexive. -/
theorem strLt_irrefl : ∀ l : List Char, strLt l l = false
  | [] => rfl
  | a :: as => by
      unfold strLt
      rw [if_neg (lt_irrefl a), if_neg (lt_irrefl a)]
      exact strLt_irrefl as

/-- `strLt` is transitive. -/
theorem strLt_trans : ∀ (a b c : List Char),
    strLt a b = true → strLt b c = true → strLt a c = true
  | [], [], _, hab, _ => by simp [strLt] at hab
  | [], _ :: _, [], _, hbc => by simp [strLt] at hbc
  | [], _ :: _, _ :: _, _, _ => rfl
  | _ :: _, [], _, hab, _ => by simp [strLt] at hab
  | _ :: _, _ :: _, [], _, hbc => by simp [strLt] at hbc
  | x :: xs, y :: ys, z :: zs, hab, hbc => by
      unfold strLt at hab hbc ⊢
      by_cases hxy : x < y
      · by_cases hyz : y < z
        · rw [if_pos (lt_trans hxy hyz)]
        · rw [if_neg hyz] at hbc
          by_cases hzy : z < y
          · rw [if_pos hzy] at hbc
            exact absurd hbc (by simp)
          · have hyzeq : y = z := le_antisymm (le_of_not_lt hzy) (le_of_not_lt hyz)
            rw [if_pos (hyzeq ▸ hxy)]
      · rw [if_neg hxy] at hab
        by_cases hyx : y < x
        · rw [if_pos hyx] at hab
          exact absurd hab (by simp)
        · rw [if_neg hyx] at hab
          have hxyeq : x = y := le_antisymm (le_of_not_lt hyx) (le_of_not_lt hxy)
          subst hxyeq
          by_cases hxz : x < z
          · rw [if_pos hxz]
          · rw [if_neg hxz] at hbc ⊢
            by_cases hzx : z < x
            · rw [if_pos hzx] at hbc
              exact absurd hbc (by simp)
            · rw [if_neg hzx] at hbc ⊢
              exact strLt_trans xs ys zs hab hbc

/-- `strLt` is total: two mutually non-smaller lists are equal. -/
theorem strLt_total : ∀ (a b : List Char),
    strLt a b = false → strLt b a = false → a = b
  | [], [], _, _ => rfl
  | [], _ :: _, hab, _ => by simp [strLt] at hab
  | _ :: _, [], _, hba => by simp [strLt] at hba
  | x :: xs, y :: ys, hab, hba => by
      unfold strLt at hab hba
      by_cases hxy : x < y
      · rw [if_pos hxy] at hab
        exact absurd hab (by simp)
      · by_cases hyx : y < x
        · rw [if_pos hyx] at hba
          exact absurd hba (by simp)
        · rw [if_neg hxy, if_neg hyx] at hab
          rw [if_neg hyx, if_neg hxy] at hba
          have hx : x = y := le_antisymm (le_of_not_lt hyx) (le_of_not_lt hxy)
          rw [hx, strLt_total xs ys hab hba]

/-- `entLt` as a disjunction. -/
theorem entLt_iff (a b : Entry) :
    entLt a b = true ↔ a.1 < b.1 ∨ (a.1 = b.1 ∧ strLt a.2.data b.2.data = true) := by
  unfold entLt
  rw [Bool.or_eq_true, Bool.and_eq_true]
  simp

/-- `entLt` is irreflexive. -/
theorem entLt_irrefl (a : Entry) : entLt a a = false := by
  unfold entLt
  simp [strLt_irrefl]

/-- `entLt` is transitive. -/
theorem entLt_trans {a b c : Entry} (hab : entLt a b = true)
    (hbc : entLt b c = true) : entLt a c = true := by
  rw [entLt_iff] at hab hbc ⊢
  rcases hab with h1 | ⟨h1e, h1s⟩ <;> rcases hbc with h2 | ⟨h2e, h2s⟩
  · exact Or.inl (lt_trans h1 h2)
  · exact Or.inl (h2e ▸ h1)
  · exact Or.inl (h1e ▸ h2)
  · exact Or.inr ⟨h1e.trans h2e, strLt_trans _ _ _ h1s h2s⟩

/-- `entLt` is total: two mutually non-smaller entries are equal. -/
theorem entLt_total {a b : Entry} (hab : entLt a b = false)
    (hba : entLt b a = false) : a = b := by
  have hab' : ¬ (a.1 < b.1 ∨ (a.1 = b.1 ∧ strLt a.2.data b.2.data = true)) := by
    rw [← entLt_iff]
    simp [hab]
  have hba' : ¬ (b.1 < a.1 ∨ (b.1 = a.1 ∧ strLt b.2.data a.2.data = true)) := by
    rw [← entLt_iff]
    simp [hba]
  push_neg at hab' hba'
  have hint : a.1 = b.1 := le_antisymm hba'.1 hab'.1
  have hs1 : strLt a.2.data b.2.data = false := by
    have := hab'.2 hint
    simpa using this
  have hs2 : strLt b.2.data a.2.data = false := by
    have := hba'.2 hint.symm
    simpa using this
  have hdata := strLt_total _ _ hs1 hs2
  exact Prod.ext hint (String.ext hdata)

/-- Transitivity of the complement of `entLt`. -/
theorem entLt_false_trans {a b c : Entry} (hab : entLt a b = false)
    (hbc : entLt b c = false) : entLt a c = false := by
  by_cases hac : entLt a c = true
  · by_cases hcb : entLt c b = true
    · exact absurd (entLt_trans hac hcb) (by simp [hab])
    · have hcb' : entLt c b = false := by
        cases h : entLt c b
        · rfl
        · exact absurd h hcb
      have hbceq : b = c := entLt_total hbc hcb'
      rw [← hbceq] at hac
      exact absurd hac (by simp [hab])
  · cases h : entLt a c
    · rfl
    · exact absurd h hac

/-! #### The heap invariant and root minimality -/

/-- Reading an index away from a write. -/
theorem get_set_ne {α : Type} (l : List α) (i j : Nat) (a : α) (hne : i ≠ j)
    (hj' : j < (l.set i a).length) :
    (l.set i a).get ⟨j, hj'⟩ = l.get ⟨j, by simpa using hj'⟩ := by
  simp only [List.get_eq_getElem]
  exact List.getElem_set_ne hne ..

/-- Reading the index just written. -/
theorem get_set_self {α : Type} (l : List α) (i : Nat) (a : α)
    (hi' : i < (l.set i a).length) : (l.set i a).get ⟨i, hi'⟩ = a := by
  simp only [List.get_eq_getElem]
  exact List.getElem_set_self ..

/-- In a heap, the root is a minimum. -/
theorem heap_root_min {h : List Entry} (hinv : heapInv h) :
    ∀ i : Nat, (hi : i < h.length) → (h0 : 0 < h.length) →
      entLt (h.get ⟨i, hi⟩) (h.get ⟨0, h0⟩) = false := by
  intro i
  induction i using Nat.strong_induction_on with
  | _ i ih =>
      intro hi h0
      by_cases hz : i = 0
      · subst hz
        exact entLt_irrefl _
      · have hpar := hinv i hi (by omega)
        have hih := ih ((i - 1) / 2) (by omega) (by omega) h0
        exact entLt_false_trans hpar hih

/-- Members of a list are values at indices. -/
theorem mem_iff_get {α : Type} {l : List α} {x : α} (hx : x ∈ l) :
    ∃ i : Fin l.length, l.get i = x := by
  obtain ⟨i, hi⟩ := List.mem_iff_get.mp hx
  exact ⟨i, hi⟩

/-- The entry returned by `heappop` from a well-shaped heap is not larger
than any entry of the heap. -/
theorem heappop_min {h : List Entry} {e : Entry} {h' : List Entry}
    (hinv : heapInv h) (hp : heappop h = some (e, h')) :
    ∀ x ∈ h, entLt x e = false := by
  have hne : h ≠ [] := by
    intro hc
    subst hc
    simp [heappop] at hp
  have h0 : 0 < h.length := List.length_pos.mpr hne
  have heq : e = h.get ⟨0, h0⟩ := by
    unfold heappop at hp
    rw [List.getLast?_eq_getLast h hne] at hp
    dsimp only at hp
    by_cases hrest : h.dropLast.isEmpty
    · rw [if_pos hrest, Option.some.injEq, Prod.mk.injEq] at hp
      rw [List.isEmpty_iff] at hrest
      have h1 : h.length = 1 := by
        have hdl := List.length_dropLast h
        rw [hrest] at hdl
        simp at hdl
        omega
      rw [← hp.1, List.getLast_eq_getElem]
      simp only [List.get_eq_getElem]
      have hidx : h.length - 1 = 0 := by omega
      simp only [hidx]
    · rw [if_neg hrest, Option.some.injEq, Prod.mk.injEq] at hp
      rw [List.isEmpty_iff] at hrest
      have hrl : 0 < h.dropLast.length := List.length_pos.mpr hrest
      rw [← hp.1]
      have : h.dropLast.getD 0 entD = h.dropLast.get ⟨0, hrl⟩ := by
        rw [List.getD_eq_getElem _ entD hrl, List.get_eq_getElem]
      rw [this]
      simp only [List.get_eq_getElem]
      exact List.getElem_dropLast ..
  intro x hx
  obtain ⟨i, hgi⟩ := mem_iff_get hx
  rw [heq, ← hgi]
  exact heap_root_min hinv i.1 i.2 h0

/-- `entLt` is asymmetric. -/
theorem entLt_asymm {a b : Entry} (hab : entLt a b = true) : entLt b a = false := by
  cases hba : entLt b a
  · rfl
  · have := entLt_trans hab hba
    rw [entLt_irrefl] at this
    exact absurd this (by simp)

/-- Hole invariant A is insensitive to the value stored in the hole. -/
theorem holeInvA_set (h : List Entry) (pos : Nat) (v : Entry)
    (hA : holeInvA h pos) : holeInvA (h.set pos v) pos := by
  intro i hi hiz hip hpp
  have hi' : i < h.length := by simpa using hi
  rw [get_set_ne h pos i v (Ne.symm hip) hi,
      get_set_ne h pos ((i - 1) / 2) v (Ne.symm hpp)
        (by simp only [List.length_set]; omega)]
  exact hA i hi' hiz hip hpp

/-- Hole invariant C is insensitive to the value stored in the hole. -/
theorem holeInvC_set (h : List Entry) (pos : Nat) (v : Entry)
    (hC : holeInvC h pos) : holeInvC (h.set pos v) pos := by
  intro i hi hpc hiz hpz
  have hi' : i < h.length := by simpa using hi
  have hpp : (pos - 1) / 2 ≠ pos := by omega
  rw [get_set_ne h pos i v (by omega) hi,
      get_set_ne h pos ((pos - 1) / 2) v (Ne.symm hpp)
        (by simp only [List.length_set]; omega)]
  exact hC i hi' hpc hiz hpz

/-- Two reads at equal indices agree. -/
theorem get_congr {α : Type} (l : List α) {a b : Nat} (pa : a < l.length)
    (pb : b < l.length) (hab : a = b) : l.get ⟨a, pa⟩ = l.get ⟨b, pb⟩ := by
  subst hab
  rfl

/-- Writing a suitable value into the hole restores the heap invariant. -/
theorem heapInv_set_hole (h : List Entry) (pos : Nat) (x : Entry)
    (hpos : pos < h.length) (hA : holeInvA h pos) (hB : holeInvB h pos x)
    (hparent : ∀ hpz : 0 < pos,
      entLt x (h.get ⟨(pos - 1) / 2, by omega⟩) = false) :
    heapInv (h.set pos x) := by
  intro i hi hiz
  have hi' : i < h.length := by simpa using hi
  by_cases hip : i = pos
  · subst hip
    have hpz : 0 < i := hiz
    have hpp : (i - 1) / 2 ≠ i := by omega
    rw [get_set_self h i x hi,
        get_set_ne h i ((i - 1) / 2) x (Ne.symm hpp)
          (by simp only [List.length_set]; omega)]
    exact hparent hpz
  · by_cases hpp : (i - 1) / 2 = pos
    · have hpar : (h.set pos x).get ⟨(i - 1) / 2, by omega⟩ = x := by
        rw [get_congr (h.set pos x) (by omega)
            (by simp only [List.length_set]; omega) hpp]
        exact get_set_self h pos x (by simp only [List.length_set]; omega)
      rw [get_set_ne h pos i x (Ne.symm hip) hi, hpar]
      exact hB i hi' hpp hiz
    · rw [get_set_ne h pos i x (Ne.symm hip) hi,
          get_set_ne h pos ((i - 1) / 2) x (Ne.symm hpp)
            (by simp only [List.length_set]; omega)]
      exact hA i hi' hiz hip hpp

/-- The bubbling-up loop turns the hole invariants into the heap invariant. -/
theorem siftdownLoop_inv (x : Entry) :
    ∀ (fuel : Nat) (h : List Entry) (pos : Nat), pos < h.length → pos ≤ fuel →
      holeInvA h pos → holeInvB h pos x → holeInvC h pos →
      heapInv (siftdownLoop x 0 fuel h pos)
  | 0, h, pos, hpos, hfuel, hA, hB, _ => by
      have hz : pos = 0 := by omega
      subst hz
      unfold siftdownLoop
      exact heapInv_set_hole h 0 x hpos hA hB (fun hpz => absurd hpz (by omega))
  | fuel + 1, h, pos, hpos, hfuel, hA, hB, hC => by
      rw [siftdownLoop]
      by_cases h0 : 0 < pos
      · rw [if_pos h0]
        have hparlt : (pos - 1) / 2 < h.length := by omega
        have hgd : h.getD ((pos - 1) / 2) entD = h.get ⟨(pos - 1) / 2, hparlt⟩ := by
          rw [List.getD_eq_getElem h entD hparlt, List.get_eq_getElem]
        by_cases hlt : entLt x (h.getD ((pos - 1) / 2) entD) = true
        · rw [if_pos hlt]
          rw [hgd] at hlt
          have hA' : holeInvA (h.set pos (h.getD ((pos - 1) / 2) entD))
              ((pos - 1) / 2) := by
            rw [hgd]
            intro i hi hiz hip hpp
            have hi' : i < h.length := by simpa using hi
            by_cases hipos : i = pos
            · exact absurd (hipos ▸ rfl) hpp
            · by_cases hppos : (i - 1) / 2 = pos
              · have hpar : (h.set pos (h.get ⟨(pos - 1) / 2, hparlt⟩)).get
                    ⟨(i - 1) / 2, by omega⟩ = h.get ⟨(pos - 1) / 2, hparlt⟩ := by
                  rw [get_congr _ (by omega)
                      (by simp only [List.length_set]; omega) hppos]
                  exact get_set_self h pos _ (by simp only [List.length_set]; omega)
                rw [get_set_ne h pos i _ (Ne.symm hipos) hi, hpar]
                exact hC i hi' hppos hiz h0
              · rw [get_set_ne h pos i _ (Ne.symm hipos) hi,
                    get_set_ne h pos ((i - 1) / 2) _ (Ne.symm hppos)
                      (by simp only [List.length_set]; omega)]
                exact hA i hi' hiz hipos hppos
          have hB' : holeInvB (h.set pos (h.getD ((pos - 1) / 2) entD))
              ((pos - 1) / 2) x := by
            rw [hgd]
            intro i hi hpc hiz
            have hi' : i < h.length := by simpa using hi
            by_cases hipos : i = pos
            · have hsame : (h.set pos (h.get ⟨(pos - 1) / 2, hparlt⟩)).get ⟨i, hi⟩ =
                  h.get ⟨(pos - 1) / 2, hparlt⟩ := by
                rw [get_congr _ (by omega)
                    (by simp only [List.length_set]; omega) hipos]
                exact get_set_self h pos _ (by simp only [List.length_set]; omega)
              rw [hsame]
              exact entLt_asymm hlt
            · rw [get_set_ne h pos i _ (Ne.symm hipos) hi]
              have hAi : entLt (h.get ⟨i, hi'⟩) (h.get ⟨(pos - 1) / 2, hparlt⟩) = false := by
                have hres := hA i hi' hiz hipos (by omega)
                rw [get_congr h (by omega) hparlt hpc] at hres
                exact hres
              cases hcontra : entLt (h.get ⟨i, hi'⟩) x
              · rfl
              · have := entLt_trans hcontra hlt
                rw [hAi] at this
                exact absurd this (by simp)
          have hC' : holeInvC (h.set pos (h.getD ((pos - 1) / 2) entD))
              ((pos - 1) / 2) := by
            rw [hgd]
            intro i hi hpc hiz hpz
            have hi' : i < h.length := by simpa using hi
            have hpplt : ((pos - 1) / 2 - 1) / 2 < h.length := by omega
            have hppne : ((pos - 1) / 2 - 1) / 2 ≠ pos := by omega
            have hpar : (h.set pos (h.get ⟨(pos - 1) / 2, hparlt⟩)).get
                ⟨((pos - 1) / 2 - 1) / 2, by omega⟩ =
                h.get ⟨((pos - 1) / 2 - 1) / 2, hpplt⟩ :=
              get_set_ne h pos (((pos - 1) / 2 - 1) / 2) _ (Ne.symm hppne)
                (by simp only [List.length_set]; omega)
            by_cases hipos : i = pos
            · have hsame : (h.set pos (h.get ⟨(pos - 1) / 2, hparlt⟩)).get ⟨i, hi⟩ =
                  h.get ⟨(pos - 1) / 2, hparlt⟩ := by
                rw [get_congr _ (by omega)
                    (by simp only [List.length_set]; omega) hipos]
                exact get_set_self h pos _ (by simp only [List.length_set]; omega)
              rw [hsame, hpar]
              exact hA ((pos - 1) / 2) hparlt (by omega) (by omega) (by omega)
            · rw [get_set_ne h pos i _ (Ne.symm hipos) hi, hpar]
              have h1 : entLt (h.get ⟨i, hi'⟩) (h.get ⟨(pos - 1) / 2, hparlt⟩) = false := by
                have hres := hA i hi' hiz hipos (by omega)
                rw [get_congr h (by omega) hparlt hpc] at hres
                exact hres
              have h2 : entLt (h.get ⟨(pos - 1) / 2, hparlt⟩)
                  (h.get ⟨((pos - 1) / 2 - 1) / 2, hpplt⟩) = false :=
                hA ((pos - 1) / 2) hparlt (by omega) (by omega) (by omega)
              exact entLt_false_trans h1 h2
          exact siftdownLoop_inv x fuel _ ((pos - 1) / 2)
            (by simp only [List.length_set]; omega) (by omega) hA' hB' hC'
        · rw [if_neg hlt]
          have hlt' : entLt x (h.get ⟨(pos - 1) / 2, hparlt⟩) = false := by
            rw [← hgd]
            cases hb : entLt x (h.getD ((pos - 1) / 2) entD)
            · rfl
            · exact absurd hb hlt
          exact heapInv_set_hole h pos x hpos hA hB (fun _ => hlt')
      · rw [if_neg h0]
        have hz : pos = 0 := by omega
        subst hz
        exact heapInv_set_hole h 0 x hpos hA hB (fun hpz => absurd hpz (by omega))

/-- The chosen child is minimal among the hole's children. -/
theorem childIdx_min (h : List Entry) (endpos pos : Nat) (hlen : endpos = h.length)
    (hc : 2 * pos + 1 < endpos) (hcp : childIdx h endpos pos < h.length) :
    ∀ i : Nat, (hi : i < h.length) → 0 < i → (i - 1) / 2 = pos → i ≠ childIdx h endpos pos →
      entLt (h.get ⟨i, hi⟩) (h.get ⟨childIdx h endpos pos, hcp⟩) = false := by
  intro i hi hiz hpc hneq
  have hc' : 2 * pos + 1 < h.length := by omega
  have hchild : i = 2 * pos + 1 ∨ i = 2 * pos + 2 := by omega
  have hgl : h.getD (2 * pos + 1) entD = h.get ⟨2 * pos + 1, hc'⟩ := by
    rw [List.getD_eq_getElem h entD hc', List.get_eq_getElem]
  by_cases hcond : (2 * pos + 2 < endpos &&
      !entLt (h.getD (2 * pos + 1) entD) (h.getD (2 * pos + 2) entD)) = true
  · have hval : childIdx h endpos pos = 2 * pos + 2 := by
      unfold childIdx
      rw [if_pos hcond]
    have h22 : 2 * pos + 2 < h.length := by rw [← hval]; exact hcp
    have hgr : h.getD (2 * pos + 2) entD = h.get ⟨2 * pos + 2, h22⟩ := by
      rw [List.getD_eq_getElem h entD h22, List.get_eq_getElem]
    rw [hval] at hneq
    have hii : i = 2 * pos + 1 := by omega
    have hflt : entLt (h.getD (2 * pos + 1) entD) (h.getD (2 * pos + 2) entD) = false := by
      cases hx : entLt (h.getD (2 * pos + 1) entD) (h.getD (2 * pos + 2) entD)
      · rfl
      · rw [Bool.and_eq_true, hx] at hcond
        simpa using hcond.2
    rw [get_congr h hcp h22 hval]
    rw [hgl, hgr] at hflt
    subst hii
    exact hflt
  · have hval : childIdx h endpos pos = 2 * pos + 1 := by
      unfold childIdx
      rw [if_neg hcond]
    rw [hval] at hneq
    have hii : i = 2 * pos + 2 := by omega
    have h22 : 2 * pos + 2 < endpos := by omega
    have hgr : h.getD (2 * pos + 2) entD = h.get ⟨2 * pos + 2, by omega⟩ := by
      rw [List.getD_eq_getElem h entD (by omega), List.get_eq_getElem]
    have hlt : entLt (h.getD (2 * pos + 1) entD) (h.getD (2 * pos + 2) entD) = true := by
      cases hb : entLt (h.getD (2 * pos + 1) entD) (h.getD (2 * pos + 2) entD)
      · exact absurd (by rw [hb]; simp [h22]) hcond
      · rfl
    rw [get_congr h hcp hc' hval]
    rw [hgl, hgr] at hlt
    have hres := entLt_asymm hlt
    rw [get_congr h hi (by omega) hii]
    exact hres

/-- The descending loop keeps the hole invariants and ends at a leaf. -/
theorem siftupLoop_inv (endpos : Nat) :
    ∀ (fuel : Nat) (h : List Entry) (pos : Nat), endpos = h.length → pos < endpos →
      endpos ≤ fuel + pos →
      holeInvA h pos → holeInvC h pos →
      holeInvA (siftupLoop endpos fuel h pos).1 (siftupLoop endpos fuel h pos).2 ∧
      holeInvC (siftupLoop endpos fuel h pos).1 (siftupLoop endpos fuel h pos).2 ∧
      endpos ≤ 2 * (siftupLoop endpos fuel h pos).2 + 1
  | 0, h, pos, hlen, hpos, hfuel, hA, hC => by omega
  | fuel + 1, h, pos, hlen, hpos, hfuel, hA, hC => by
      rw [siftupLoop]
      by_cases hguard : 2 * pos + 1 < endpos
      · rw [if_pos hguard]
        obtain ⟨hcpb, hcpg⟩ := childIdx_bounds h endpos pos hguard
        have hposh : pos < h.length := by omega
        have hcpl : childIdx h endpos pos < h.length := by omega
        have hcvchild : (childIdx h endpos pos - 1) / 2 = pos := by
          unfold childIdx
          split <;> omega
        have hgd : h.getD (childIdx h endpos pos) entD =
            h.get ⟨childIdx h endpos pos, hcpl⟩ := by
          rw [List.getD_eq_getElem h entD hcpl, List.get_eq_getElem]
        have hlset : ∀ j : Nat, j < h.length →
            j < (h.set pos (h.getD (childIdx h endpos pos) entD)).length := by
          intro j hj
          simpa using hj
        apply siftupLoop_inv endpos fuel
          (h.set pos (h.getD (childIdx h endpos pos) entD)) (childIdx h endpos pos)
          (by rw [hlen]; simp) hcpb (by omega)
        · -- hole invariant A at the new hole
          intro i hi hiz hip hpp
          have hi' : i < h.length := by simpa using hi
          by_cases hipos : i = pos
          · have hpz : 0 < pos := by omega
            have e1 : (h.set pos (h.getD (childIdx h endpos pos) entD)).get ⟨i, hi⟩ =
                h.get ⟨childIdx h endpos pos, hcpl⟩ := by
              rw [get_congr _ hi (hlset pos hposh) hipos,
                  get_set_self h pos _ (hlset pos hposh), hgd]
            have hparlt : (i - 1) / 2 < h.length := by omega
            have e2 : (h.set pos (h.getD (childIdx h endpos pos) entD)).get
                ⟨(i - 1) / 2, by omega⟩ = h.get ⟨(pos - 1) / 2, by omega⟩ := by
              rw [get_set_ne h pos ((i - 1) / 2) _ (by omega) (hlset _ hparlt)]
              exact get_congr h hparlt (by omega) (by omega)
            rw [e1, e2]
            exact hC (childIdx h endpos pos) hcpl hcvchild (by omega) hpz
          · by_cases hppos : (i - 1) / 2 = pos
            · have e1 : (h.set pos (h.getD (childIdx h endpos pos) entD)).get ⟨i, hi⟩ =
                  h.get ⟨i, hi'⟩ :=
                get_set_ne h pos i _ (Ne.symm hipos) hi
              have e2 : (h.set pos (h.getD (childIdx h endpos pos) entD)).get
                  ⟨(i - 1) / 2, by omega⟩ = h.get ⟨childIdx h endpos pos, hcpl⟩ := by
                rw [get_congr _ (by omega) (hlset pos hposh) hppos,
                    get_set_self h pos _ (hlset pos hposh), hgd]
              rw [e1, e2]
              exact childIdx_min h endpos pos hlen hguard hcpl i hi' hiz hppos hip
            · rw [get_set_ne h pos i _ (Ne.symm hipos) hi,
                  get_set_ne h pos ((i - 1) / 2) _ (Ne.symm hppos)
                    (by simp only [List.length_set]; omega)]
              exact hA i hi' hiz hipos hppos
        · -- hole invariant C at the new hole
          intro i hi hpc hiz hpz
          have hi' : i < h.length := by simpa using hi
          have hipos : i ≠ pos := by omega
          have e1 : (h.set pos (h.getD (childIdx h endpos pos) entD)).get ⟨i, hi⟩ =
              h.get ⟨i, hi'⟩ :=
            get_set_ne h pos i _ (Ne.symm hipos) hi
          have e2 : (h.set pos (h.getD (childIdx h endpos pos) entD)).get
              ⟨(childIdx h endpos pos - 1) / 2, by omega⟩ =
              h.get ⟨childIdx h endpos pos, hcpl⟩ := by
            rw [get_congr _ (by omega) (hlset pos hposh) hcvchild,
                get_set_self h pos _ (hlset pos hposh), hgd]
          rw [e1, e2]
          have hres := hA i hi' (by omega) hipos (by omega)
          rw [get_congr h (by omega) hcpl hpc] at hres
          exact hres
      · rw [if_neg hguard]
        exact ⟨hA, hC, by omega⟩

/-- `_siftup` at the root of a well-shaped (root removed) heap restores the
heap invariant. -/
theorem siftup_inv (h : List Entry) (h0 : 0 < h.length) (hA : holeInvA h 0) :
    heapInv (siftup h 0) := by
  unfold siftup
  have hC0 : holeInvC h 0 := fun i hi hpc hiz hpz => absurd hpz (by omega)
  obtain ⟨sA, sC, sleaf⟩ := siftupLoop_inv h.length h.length h 0 rfl h0
    (by omega) hA hC0
  obtain ⟨l1, l2, _⟩ := siftupLoop_spec h.length h.length h 0 rfl h0
  apply siftdownLoop_inv (h.getD 0 entD) (siftupLoop h.length h.length h 0).2
    ((siftupLoop h.length h.length h 0).1.set (siftupLoop h.length h.length h 0).2
      (h.getD 0 entD)) (siftupLoop h.length h.length h 0).2
    (by simp only [List.length_set]; omega) (le_refl _)
  · exact holeInvA_set _ _ _ sA
  · intro i hi hpc hiz
    have : i < h.length := by
      simp only [List.length_set, l1] at hi
      exact hi
    omega
  · exact holeInvC_set _ _ _ sC

/-- `heappush` preserves the heap invariant. -/
theorem heappush_inv (h : List Entry) (x : Entry) (hinv : heapInv h) :
    heapInv (heappush h x) := by
  unfold heappush
  have hidx : (h ++ [x]).length - 1 = h.length := by simp
  rw [hidx]
  apply siftdownLoop_inv x h.length (h ++ [x]) h.length (by simp) (le_refl _)
  · intro i hi hiz hip hpp
    have hi' : i < h.length := by
      simp only [List.length_append, List.length_singleton] at hi
      omega
    have hpar : (i - 1) / 2 < h.length := by omega
    have e1 : (h ++ [x]).get ⟨i, hi⟩ = h.get ⟨i, hi'⟩ := by
      simp only [List.get_eq_getElem]
      exact List.getElem_append_left ..
    have e2 : (h ++ [x]).get ⟨(i - 1) / 2, by omega⟩ = h.get ⟨(i - 1) / 2, hpar⟩ := by
      simp only [List.get_eq_getElem]
      exact List.getElem_append_left ..
    rw [e1, e2]
    exact hinv i hi' hiz
  · intro i hi hpc hiz
    simp only [List.length_append, List.length_singleton] at hi
    omega
  · intro i hi hpc hiz hpz
    simp only [List.length_append, List.length_singleton] at hi
    omega

/-- `heappop` preserves the heap invariant. -/
theorem heappop_inv {h : List Entry} {e : Entry} {h' : List Entry}
    (hinv : heapInv h) (hp : heappop h = some (e, h')) : heapInv h' := by
  have hne : h ≠ [] := by
    intro hc
    subst hc
    simp [heappop] at hp
  unfold heappop at hp
  rw [List.getLast?_eq_getLast h hne] at hp
  dsimp only at hp
  by_cases hrest : h.dropLast.isEmpty
  · rw [if_pos hrest, Option.some.injEq, Prod.mk.injEq] at hp
    rw [← hp.2]
    intro i hi hiz
    simp at hi
  · rw [if_neg hrest, Option.some.injEq, Prod.mk.injEq] at hp
    rw [List.isEmpty_iff] at hrest
    have hrl : 0 < h.dropLast.length := List.length_pos.mpr hrest
    rw [← hp.2]
    apply siftup_inv _ (by simpa using hrl)
    intro i hi hiz hip hpp
    have hi2 : i < h.dropLast.length := by simpa using hi
    have hi3 : i < h.length := by
      rw [List.length_dropLast] at hi2
      omega
    have hpar2 : (i - 1) / 2 < h.dropLast.length := by omega
    have hpar3 : (i - 1) / 2 < h.length := by
      rw [List.length_dropLast] at hpar2
      omega
    have e1 : (h.dropLast.set 0 (h.getLast hne)).get ⟨i, hi⟩ =
        h.get ⟨i, hi3⟩ := by
      rw [get_set_ne _ 0 i _ (Ne.symm hip) hi]
      simp only [List.get_eq_getElem]
      exact List.getElem_dropLast ..
    have e2 : (h.dropLast.set 0 (h.getLast hne)).get ⟨(i - 1) / 2, by omega⟩ =
        h.get ⟨(i - 1) / 2, hpar3⟩ := by
      rw [get_set_ne _ 0 ((i - 1) / 2) _ (Ne.symm hpp)
        (by simp only [List.length_set]; simpa using hpar2)]
      simp only [List.get_eq_getElem]
      exact List.getElem_dropLast ..
    rw [e1, e2]
    exact hinv i hi3 hiz

/-! #### Termination of the `while` loop -/

/-- Growing the visited list cannot grow the remaining degree. -/
theorem remDeg_mono (visited visited' : List Node)
    (hsub : ∀ x ∈ visited, x ∈ visited') :
    ∀ g : Graph, remDeg g visited' ≤ remDeg g visited
  | [] => le_refl _
  | kv :: rest => by
      unfold remDeg
      simp only [List.filter_cons]
      have ih := remDeg_mono visited visited' hsub rest
      unfold remDeg at ih
      by_cases h' : kv.1 ∉ visited'
      · have h : kv.1 ∉ visited := fun hc => h' (hsub _ hc)
        rw [if_pos (by simpa using h'), if_pos (by simpa using h)]
        simp only [List.map_cons, List.sum_cons]
        omega
      · rw [if_neg (by simpa using h')]
        by_cases h : kv.1 ∉ visited
        · rw [if_pos (by simpa using h)]
          simp only [List.map_cons, List.sum_cons]
          omega
        · rw [if_neg (by simpa using h)]
          exact ih

/-- Visiting a node removes at least its neighbour count from the remaining
degree. -/
theorem remDeg_visit (temp : Node) (visited : List Node) (nbrs : Nbrs)
    (hnv : temp ∉ visited) :
    ∀ g : Graph, dlookup g temp = some nbrs →
      remDeg g (visited ++ [temp]) + nbrs.length ≤ remDeg g visited
  | [], h => by simp [dlookup] at h
  | (k, v) :: rest, h => by
      unfold dlookup at h
      unfold remDeg
      simp only [List.filter_cons]
      by_cases hk : k = temp
      · rw [if_pos hk, Option.some.injEq] at h
        subst h
        rw [if_neg (by simp only [decide_eq_true_eq]; rw [hk]; simp),
            if_pos (by simp only [decide_eq_true_eq]; rw [hk]; exact hnv)]
        simp only [List.map_cons, List.sum_cons]
        have hmono := remDeg_mono visited (visited ++ [temp])
          (fun x hx => List.mem_append_left _ hx) rest
        unfold remDeg at hmono
        omega
      · rw [if_neg hk] at h
        have ih := remDeg_visit temp visited nbrs hnv rest h
        unfold remDeg at ih
        by_cases hkv : k ∈ visited
        · rw [if_neg (by simp [hkv]), if_neg (by simp [hkv])]
          exact ih
        · rw [if_pos (by simp [hkv, hk]), if_pos (by simp [hkv])]
          simp only [List.map_cons, List.sum_cons]
          omega

/-- Appending a fresh entry with an empty neighbour dict does not change the
remaining degree. -/
theorem remDeg_append_nil (g : Graph) (k : Node) (vis : List Node) :
    remDeg (g ++ [(k, [])]) vis = remDeg g vis := by
  unfold remDeg
  rw [List.filter_append, List.map_append, List.sum_append]
  have : ((([(k, ([] : Nbrs))] : Graph).filter
      (fun kv => decide (kv.1 ∉ vis))).map (fun kv => kv.2.length)).sum = 0 := by
    simp only [List.filter]
    split <;> simp
  omega

/-- With nothing visited, the remaining degree is the total degree. -/
theorem remDeg_nil (g : Graph) : remDeg g [] = totalDeg g := by
  unfold remDeg totalDeg
  simp

/-- A successful inner relaxation loop keeps the `node_data` keys and pushes
at most one entry per neighbour. -/
theorem relaxAll_spec (temp : Node) (visited : List Node) :
    ∀ (nbrs : Nbrs) (nd : NDList) (heap : List Entry) (nd' : NDList)
      (heap' : List Entry),
      relaxAll temp visited nbrs nd heap = some (nd', heap') →
      dkeys nd' = dkeys nd ∧ heap'.length ≤ heap.length + nbrs.length
  | [], nd, heap, nd', heap' => by
      intro h
      unfold relaxAll at h
      rw [Option.some.injEq, Prod.mk.injEq] at h
      obtain ⟨rfl, rfl⟩ := h
      exact ⟨rfl, by omega⟩
  | (j, w) :: rest, nd, heap, nd', heap' => by
      intro h
      unfold relaxAll at h
      by_cases hjv : j ∈ visited
      · rw [if_pos hjv] at h
        obtain ⟨h1, h2⟩ := relaxAll_spec temp visited rest nd heap nd' heap' h
        exact ⟨h1, by simp only [List.length_cons]; omega⟩
      · rw [if_neg hjv] at h
        cases ht : dlookup nd temp with
        | none =>
            rw [ht] at h
            cases hj : dlookup nd j with
            | none => rw [hj] at h; simp at h
            | some ji => rw [hj] at h; simp at h
        | some ti =>
            rw [ht] at h
            cases hj : dlookup nd j with
            | none => rw [hj] at h; simp at h
            | some ji =>
                rw [hj] at h
                dsimp only at h
                obtain ⟨h1, h2⟩ := relaxAll_spec temp visited rest _ _ nd' heap' h
                have hkeys : dkeys (if ti.cost + w < ji.cost
                    then dset nd j ⟨ti.cost + w, ti.pred ++ [temp]⟩ else nd) = dkeys nd := by
                  split
                  · rw [dkeys_dset, if_pos ((dlookup_isSome_iff nd j).mp (by simp [hj]))]
                  · rfl
                have hpl := (ms_heappush heap
                  ((if ti.cost + w < ji.cost then ti.cost + w else ji.cost), j)).2
                rw [hkeys] at h1
                refine ⟨h1, ?_⟩
                rw [hpl] at h2
                simp only [List.length_cons]
                omega

/-- Any completed loop leaves the `node_data` keys unchanged. -/
theorem dloop_keys (src dst : Node) :
    ∀ (fuel : Nat) (g : Graph) (nd : NDList) (visited : List Node)
      (heap : List Entry) (gR : Graph) (ndR : NDList),
      dloop src dst fuel g nd visited heap = .done gR ndR → dkeys ndR = dkeys nd
  | 0, g, nd, visited, heap, gR, ndR => by
      intro h
      simp [dloop] at h
  | fuel + 1, g, nd, visited, heap, gR, ndR => by
      intro h
      rw [dloop] at h
      cases hp : heappop heap with
      | none =>
          rw [hp] at h
          dsimp only at h
          rw [LoopRes.done.injEq] at h
          rw [h.2]
      | some pr =>
          obtain ⟨⟨p, temp⟩, heap'⟩ := pr
          rw [hp] at h
          dsimp only at h
          by_cases hsd : src = dst
          · rw [if_pos hsd] at h
            rw [LoopRes.done.injEq] at h
            rw [h.2]
          · rw [if_neg hsd] at h
            by_cases htv : temp ∈ visited
            · rw [if_pos htv] at h
              exact dloop_keys src dst fuel g nd visited heap' gR ndR h
            · rw [if_neg htv] at h
              cases hlk : dlookup g temp with
              | none =>
                  rw [hlk] at h
                  dsimp only at h
                  exact dloop_keys src dst fuel _ nd _ heap' gR ndR h
              | some neighbours =>
                  rw [hlk] at h
                  dsimp only at h
                  by_cases hemp : neighbours.isEmpty
                  · rw [if_pos hemp] at h
                    exact dloop_keys src dst fuel g nd _ heap' gR ndR h
                  · rw [if_neg hemp] at h
                    cases hr : relaxAll temp (visited ++ [temp]) neighbours nd heap' with
                    | none => rw [hr] at h; simp at h
                    | some pr2 =>
                        obtain ⟨nd2, heap2⟩ := pr2
                        rw [hr] at h
                        dsimp only at h
                        have h1 := dloop_keys src dst fuel g nd2 _ heap2 gR ndR h
                        rw [h1]
                        exact (relaxAll_spec temp (visited ++ [temp]) neighbours
                          nd heap' nd2 heap2 hr).1

/-- With fuel exceeding the potential, the loop never runs out of fuel. -/
theorem dloop_no_fuelOut (src dst : Node) :
    ∀ (fuel : Nat) (g : Graph) (nd : NDList) (visited : List Node)
      (heap : List Entry),
      potential g visited heap < fuel →
      dloop src dst fuel g nd visited heap ≠ .fuelOut
  | 0, g, nd, visited, heap => by
      intro hpot
      unfold potential at hpot
      omega
  | fuel + 1, g, nd, visited, heap => by
      intro hpot
      rw [dloop]
      cases hp : heappop heap with
      | none => simp
      | some pr =>
          obtain ⟨⟨p, temp⟩, heap'⟩ := pr
          obtain ⟨hms, hlen⟩ := ms_heappop hp
          dsimp only
          by_cases hsd : src = dst
          · rw [if_pos hsd]
            simp
          · rw [if_neg hsd]
            by_cases htv : temp ∈ visited
            · rw [if_pos htv]
              apply dloop_no_fuelOut src dst fuel
              unfold potential at hpot ⊢
              omega
            · rw [if_neg htv]
              cases hlk : dlookup g temp with
              | none =>
                  dsimp only
                  apply dloop_no_fuelOut src dst fuel
                  unfold potential at hpot ⊢
                  rw [remDeg_append_nil]
                  have := remDeg_mono visited (visited ++ [temp])
                    (fun x hx => List.mem_append_left _ hx) g
                  omega
              | some neighbours =>
                  dsimp only
                  by_cases hemp : neighbours.isEmpty
                  · rw [if_pos hemp]
                    apply dloop_no_fuelOut src dst fuel
                    unfold potential at hpot ⊢
                    have := remDeg_mono visited (visited ++ [temp])
                      (fun x hx => List.mem_append_left _ hx) g
                    omega
                  · rw [if_neg hemp]
                    cases hr : relaxAll temp (visited ++ [temp]) neighbours nd heap' with
                    | none => simp
                    | some pr2 =>
                        obtain ⟨nd2, heap2⟩ := pr2
                        dsimp only
                        apply dloop_no_fuelOut src dst fuel
                        obtain ⟨hk, hl⟩ := relaxAll_spec temp (visited ++ [temp])
                          neighbours nd heap' nd2 heap2 hr
                        have hv := remDeg_visit temp visited neighbours htv g hlk
                        unfold potential at hpot ⊢
                        omega

/-! #### The degenerate and erroneous entry points -/

/-- `node_data` lookup of a present key after initialisation. -/
theorem dlookup_initND_mem (g : Graph) (k : Node) (hk : k ∈ dkeys g) :
    dlookup (initND g) k = some ⟨inf, []⟩ := by
  obtain ⟨nb, hnb⟩ := Option.isSome_iff_exists.mp ((dlookup_isSome_iff g k).mpr hk)
  rw [dlookup_initND, hnb]
  rfl

/-- The initial `node_data` write keeps the key set equal to the graph's. -/
theorem dkeys_init_dset (g : Graph) (src : Node) (hs : src ∈ dkeys g) (v : NData) :
    dkeys (dset (initND g) src v) = dkeys g := by
  rw [dkeys_dset, if_pos (by rwa [dkeys_initND]), dkeys_initND]

/-- A self-query on a present key returns the one-node path (shared helper:
the very first pop breaks out of the loop before any relaxation, and the
predecessor chain of `X` is still empty). -/
theorem dijkstra_self_eq (g : Graph) (X : Node) (hX : X ∈ dkeys g) :
    dijkstra g X X = .ok X := by
  unfold dijkstra dijkstraWith
  rw [dlookup_initND_mem g X hX]
  dsimp only
  have hf : enoughFuel g = (1 + totalDeg g) + 1 := by unfold enoughFuel; omega
  rw [hf, dloop]
  have hpop : heappop [((0 : Int), X)] = some (((0 : Int), X), []) := rfl
  rw [hpop]
  dsimp only
  rw [if_pos rfl]
  dsimp only
  rw [dlookup_dset_self]
  dsimp only
  rfl

/-- C3: for any graph and any node key `X`, `dijkstra(graph, X, X)` is the
single-element path `X`: the very first pop breaks out of the loop before any
relaxation, and the predecessor chain of `X` is still empty. -/
theorem dijkstra_self (g : Graph) (X : Node) (hX : X ∈ dkeys g) :
    dijkstra g X X = .ok X :=
  dijkstra_self_eq g X hX

/-- Witness for C3 on the reference test graph at node `A`. -/
theorem dijkstra_self_witness : dijkstra test_graph "A" "A" = .ok "A" :=
  dijkstra_self test_graph "A" (by decide)

/-- Any call with a missing source or destination key ends in a `KeyError`:
a missing `src` fails at `node_data[src]['cost'] = 0`, and a missing `dst`
fails at `node_data[dst]['pred']` after the loop (shared helper). -/
theorem missingKey_keyError (g : Graph) (src dst : Node)
    (hmiss : src ∉ dkeys g ∨ dst ∉ dkeys g) :
    dijkstra g src dst = .keyError := by
  by_cases hs : src ∈ dkeys g
  · have hd : dst ∉ dkeys g := by
      rcases hmiss with h | h
      · exact absurd hs h
      · exact h
    unfold dijkstra dijkstraWith
    cases hlk : dlookup (initND g) src with
    | none => rfl
    | some info =>
        dsimp only
        cases hdl : dloop src dst (enoughFuel g) g
            (dset (initND g) src ⟨0, info.pred⟩) [] [(0, src)] with
        | done gR ndR =>
            dsimp only
            have hkeys := dloop_keys src dst (enoughFuel g) g
              (dset (initND g) src ⟨0, info.pred⟩) [] [(0, src)] gR ndR hdl
            have hkeys2 : dkeys ndR = dkeys g := by
              rw [hkeys, dkeys_init_dset g src hs]
            cases hld : dlookup ndR dst with
            | none => rfl
            | some infoD =>
                have : dst ∈ dkeys g := by
                  rw [← hkeys2]
                  exact (dlookup_isSome_iff ndR dst).mp (by simp [hld])
                exact absurd this hd
        | keyError => rfl
        | fuelOut =>
            have hpot : potential g [] [(0, src)] < enoughFuel g := by
              unfold potential enoughFuel
              rw [remDeg_nil]
              simp
            exact absurd hdl (dloop_no_fuelOut src dst (enoughFuel g) g
              (dset (initND g) src ⟨0, info.pred⟩) [] [(0, src)] hpot)
  · unfold dijkstra dijkstraWith
    cases hlk : dlookup (initND g) src with
    | none => rfl
    | some info =>
        have : src ∈ dkeys g := by
          have := (dlookup_isSome_iff (initND g) src).mp (by simp [hlk])
          rwa [dkeys_initND] at this
        exact absurd this hs

/-- C4 (amended): for every graph and every pair where `src` or `dst` is not a
node key, `dijkstra` signals an error (a `KeyError` escapes); no such call
completes with a result. -/
theorem dijkstra_missing_key (g : Graph) (src dst : Node)
    (hmiss : src ∉ dkeys g ∨ dst ∉ dkeys g) :
    dijkstra g src dst = .keyError :=
  missingKey_keyError g src dst hmiss

/-- Witness for C4: querying the unknown node `Z` on the test graph raises. -/
theorem dijkstra_missing_key_witness : dijkstra test_graph "Z" "A" = .keyError :=
  dijkstra_missing_key test_graph "Z" "A" (Or.inl (by decide))

/-- Counterexample to C4 as stated: there is no input with a missing endpoint
on which the call completes without signalling an error. -/
theorem dijkstra_missing_key_no_silent :
    ¬ ∃ (g : Graph) (src dst : Node),
        (src ∉ dkeys g ∨ dst ∉ dkeys g) ∧ dijkstra g src dst ≠ .keyError := by
  rintro ⟨g, src, dst, hmiss, hne⟩
  exact hne (missingKey_keyError g src dst hmiss)

/-- C10: with both endpoints present and every neighbour key a node key,
`dijkstra` terminates: the a-priori fuel bound `2 + totalDeg g` (one initial
pop plus at most one push per neighbour entry) is never exhausted, because
each node is visited at most once and pushes happen only while visiting. -/
theorem dijkstra_terminates (g : Graph) (src dst : Node)
    (hcl : closedB g = true) (hs : src ∈ dkeys g) (hd : dst ∈ dkeys g) :
    dijkstra g src dst ≠ .fuelOut := by
  unfold dijkstra dijkstraWith
  cases hlk : dlookup (initND g) src with
  | none => simp
  | some info =>
      dsimp only
      have hpot : potential g [] [(0, src)] < enoughFuel g := by
        unfold potential enoughFuel
        rw [remDeg_nil]
        simp
      cases hdl : dloop src dst (enoughFuel g) g
          (dset (initND g) src ⟨0, info.pred⟩) [] [(0, src)] with
      | done gR ndR =>
          dsimp only
          cases dlookup ndR dst <;> simp
      | keyError => simp
      | fuelOut =>
          exact absurd hdl (dloop_no_fuelOut src dst (enoughFuel g) g
            (dset (initND g) src ⟨0, info.pred⟩) [] [(0, src)] hpot)

/-- Witness for C10 on the reference test graph. -/
theorem dijkstra_terminates_witness : dijkstra test_graph "A" "F" ≠ .fuelOut :=
  dijkstra_terminates test_graph "A" "F" (by decide) (by decide) (by decide)

/-! #### Reachability and the degenerate unreachable-destination run -/

/-- A membership witness makes the dict lookup succeed. -/
theorem dlookup_isSome_of_mem {α : Type} {d : List (Node × α)} {k : Node} {v : α}
    (h : (k, v) ∈ d) : (dlookup d k).isSome := by
  rw [dlookup_isSome_iff]
  exact List.mem_map.mpr ⟨(k, v), h, rfl⟩

/-- A closed graph's neighbour keys are node keys. -/
theorem closedB_mem {g : Graph} (hcl : closedB g = true) {k : Node} {nbrs : Nbrs}
    (hk : dlookup g k = some nbrs) {j : Node} {w : Int} (hj : (j, w) ∈ nbrs) :
    j ∈ dkeys g := by
  unfold closedB at hcl
  rw [List.all_eq_true] at hcl
  have h1 := hcl (k, nbrs) (dlookup_mem hk)
  rw [List.all_eq_true] at h1
  have h2 := h1 (j, w) hj
  exact (dlookup_isSome_iff g j).mp (by simpa using h2)

/-- Appending a step along an existing edge extends a chain. -/
theorem chainB_append (g : Graph) (j : Node) :
    ∀ (p : List Node) (v : Node), chainB g p = true → p.getLast? = some v →
      (edgeW g v j).isSome → chainB g (p ++ [j]) = true
  | [], v, _, hlast, _ => by simp at hlast
  | [a], v, _, hlast, he => by
      have hav : v = a := by
        simp only [List.getLast?_singleton, Option.some.injEq] at hlast
        exact hlast.symm
      subst hav
      show ((edgeW g v j).isSome && chainB g [j]) = true
      rw [Bool.and_eq_true]
      exact ⟨he, rfl⟩
  | a :: b :: rest, v, hch, hlast, he => by
      rw [chainB, Bool.and_eq_true] at hch
      obtain ⟨h1, h2⟩ := hch
      have hlast' : (b :: rest).getLast? = some v := by
        rw [← hlast]
        exact (List.getLast?_cons_cons ..).symm
      have h3 := chainB_append g j (b :: rest) v h2 hlast' he
      show ((edgeW g a b).isSome && chainB g (b :: rest ++ [j])) = true
      rw [Bool.and_eq_true]
      exact ⟨h1, h3⟩

/-- Every node reaches itself by the trivial one-node path. -/
theorem reach_refl (g : Graph) (s : Node) : Reach g s s :=
  ⟨[s], by simp [isPathB, chainB]⟩

/-- Reachability is closed under following one edge. -/
theorem reach_step {g : Graph} {s v j : Node} (hr : Reach g s v)
    (he : (edgeW g v j).isSome) : Reach g s j := by
  obtain ⟨p, hp⟩ := hr
  unfold isPathB at hp
  rw [Bool.and_eq_true, Bool.and_eq_true] at hp
  obtain ⟨⟨h1, h2⟩, h3⟩ := hp
  rw [beq_iff_eq] at h1 h2
  refine ⟨p ++ [j], ?_⟩
  unfold isPathB
  rw [Bool.and_eq_true, Bool.and_eq_true]
  refine ⟨⟨?_, ?_⟩, chainB_append g j p v h3 h2 he⟩
  · cases p with
    | nil => simp at h1
    | cons x xs => simpa using h1
  · rw [beq_iff_eq]
    exact List.getLast?_concat _

/-- The inner relaxation loop, on a closed graph with full `node_data`,
succeeds, keeps the keys, pushes only reachable node keys, and leaves the data
of unreachable nodes untouched. -/
theorem relaxAll_B (g₀ : Graph) (src temp : Node) (visited : List Node)
    (hcl : closedB g₀ = true) (nbrsFull : Nbrs)
    (hFull : dlookup g₀ temp = some nbrsFull) (hreachT : Reach g₀ src temp) :
    ∀ (nbrs : Nbrs), (∀ jw ∈ nbrs, jw ∈ nbrsFull) →
      ∀ (nd : NDList) (heap : List Entry), dkeys nd = dkeys g₀ →
      (∀ e ∈ heap, e.2 ∈ dkeys g₀ ∧ Reach g₀ src e.2) →
      ∃ nd' heap', relaxAll temp visited nbrs nd heap = some (nd', heap') ∧
        dkeys nd' = dkeys g₀ ∧
        (∀ e ∈ heap', e.2 ∈ dkeys g₀ ∧ Reach g₀ src e.2) ∧
        (∀ k, ¬ Reach g₀ src k → dlookup nd' k = dlookup nd k)
  | [], _, nd, heap, hknd, hh =>
      ⟨nd, heap, by unfold relaxAll; rfl, hknd, hh, fun _ _ => rfl⟩
  | (j, w) :: rest, hsub, nd, heap, hknd, hh => by
      by_cases hjv : j ∈ visited
      · obtain ⟨nd', heap', hrel, hk', hh', hpres⟩ :=
          relaxAll_B g₀ src temp visited hcl nbrsFull hFull hreachT rest
            (fun jw hjw => hsub jw (List.mem_cons_of_mem _ hjw)) nd heap hknd hh
        exact ⟨nd', heap', by unfold relaxAll; rw [if_pos hjv]; exact hrel,
          hk', hh', hpres⟩
      · have hjmem : (j, w) ∈ nbrsFull := hsub (j, w) (List.mem_cons_self _ _)
        have hjkeys : j ∈ dkeys g₀ := closedB_mem hcl hFull hjmem
        have htkeys : temp ∈ dkeys g₀ :=
          (dlookup_isSome_iff g₀ temp).mp (by simp [hFull])
        obtain ⟨ti, hti⟩ := Option.isSome_iff_exists.mp
          ((dlookup_isSome_iff nd temp).mpr (by rwa [hknd]))
        obtain ⟨ji, hji⟩ := Option.isSome_iff_exists.mp
          ((dlookup_isSome_iff nd j).mpr (by rwa [hknd]))
        have hedge : (edgeW g₀ temp j).isSome := by
          unfold edgeW
          rw [hFull]
          exact dlookup_isSome_of_mem hjmem
        have hreachJ : Reach g₀ src j := reach_step hreachT hedge
        have hknd2 : dkeys (if ti.cost + w < ji.cost
            then dset nd j ⟨ti.cost + w, ti.pred ++ [temp]⟩ else nd) = dkeys g₀ := by
          split
          · rw [dkeys_dset, if_pos ((dlookup_isSome_iff nd j).mp (by simp [hji]))]
            exact hknd
          · exact hknd
        have hh2 : ∀ e ∈ heappush heap
            ((if ti.cost + w < ji.cost then ti.cost + w else ji.cost), j),
            e.2 ∈ dkeys g₀ ∧ Reach g₀ src e.2 := by
          intro e he
          have hms := (ms_heappush heap
            ((if ti.cost + w < ji.cost then ti.cost + w else ji.cost), j)).1
          have : e ∈ ((heappush heap
              ((if ti.cost + w < ji.cost then ti.cost + w else ji.cost), j) :
                List Entry) : Multiset Entry) := he
          rw [hms, Multiset.mem_cons] at this
          rcases this with rfl | hmem
          · exact ⟨hjkeys, hreachJ⟩
          · exact hh e hmem
        obtain ⟨nd', heap', hrel, hk', hh', hpres⟩ :=
          relaxAll_B g₀ src temp visited hcl nbrsFull hFull hreachT rest
            (fun jw hjw => hsub jw (List.mem_cons_of_mem _ hjw)) _ _ hknd2 hh2
        refine ⟨nd', heap', ?_, hk', hh', ?_⟩
        · unfold relaxAll
          rw [if_neg hjv, hti, hji]
          exact hrel
        · intro k hkr
          rw [hpres k hkr]
          split
          · exact dlookup_dset_ne nd _ (fun hc => hkr (hc ▸ hreachJ))
          · rfl

/-- On a closed graph the loop completes, returns the same graph object, and
never touches the data of a node unreachable from `src`. -/
theorem dloop_done_B (g₀ : Graph) (src dst : Node) (hcl : closedB g₀ = true)
    (hsd : src ≠ dst) :
    ∀ (fuel : Nat) (nd : NDList) (visited : List Node) (heap : List Entry),
      potential g₀ visited heap < fuel →
      dkeys nd = dkeys g₀ →
      (∀ e ∈ heap, e.2 ∈ dkeys g₀ ∧ Reach g₀ src e.2) →
      ∃ ndR, dloop src dst fuel g₀ nd visited heap = .done g₀ ndR ∧
        (∀ k, ¬ Reach g₀ src k → dlookup ndR k = dlookup nd k)
  | 0, nd, visited, heap => by
      intro hpot
      unfold potential at hpot
      omega
  | fuel + 1, nd, visited, heap => by
      intro hpot hknd hh
      rw [dloop]
      cases hp : heappop heap with
      | none => exact ⟨nd, rfl, fun _ _ => rfl⟩
      | some pr =>
          obtain ⟨⟨p, temp⟩, heap'⟩ := pr
          obtain ⟨hms, hlen⟩ := ms_heappop hp
          have hpt : ((p, temp) : Entry) ∈ heap := by
            have : ((p, temp) : Entry) ∈ (heap : Multiset Entry) := by
              rw [hms]
              exact Multiset.mem_cons_self _ _
            exact this
          have hh' : ∀ e ∈ heap', e.2 ∈ dkeys g₀ ∧ Reach g₀ src e.2 := by
            intro e he
            apply hh
            have : e ∈ (heap : Multiset Entry) := by
              rw [hms]
              exact Multiset.mem_cons_of_mem he
            exact this
          obtain ⟨htk, htr⟩ := hh (p, temp) hpt
          dsimp only
          rw [if_neg hsd]
          by_cases htv : temp ∈ visited
          · rw [if_pos htv]
            apply dloop_done_B g₀ src dst hcl hsd fuel nd visited heap'
              (by unfold potential at hpot ⊢; omega) hknd hh'
          · rw [if_neg htv]
            cases hlk : dlookup g₀ temp with
            | none =>
                exact absurd ((dlookup_isSome_iff g₀ temp).mpr htk) (by simp [hlk])
            | some neighbours =>
                dsimp only
                by_cases hemp : neighbours.isEmpty
                · rw [if_pos hemp]
                  apply dloop_done_B g₀ src dst hcl hsd fuel nd _ heap'
                    (by
                      unfold potential at hpot ⊢
                      have := remDeg_mono visited (visited ++ [temp])
                        (fun x hx => List.mem_append_left _ hx) g₀
                      omega) hknd hh'
                · rw [if_neg hemp]
                  obtain ⟨nd2, heap2, hrel, hk2, hh2, hpres2⟩ :=
                    relaxAll_B g₀ src temp (visited ++ [temp]) hcl neighbours hlk htr
                      neighbours (fun jw hjw => hjw) nd heap' hknd hh'
                  rw [hrel]
                  dsimp only
                  obtain ⟨_, hlrel⟩ := relaxAll_spec temp (visited ++ [temp])
                    neighbours nd heap' nd2 heap2 hrel
                  obtain ⟨ndR, hdone, hpresR⟩ :=
                    dloop_done_B g₀ src dst hcl hsd fuel nd2 (visited ++ [temp]) heap2
                      (by
                        have hv := remDeg_visit temp visited neighbours htv g₀ hlk
                        unfold potential at hpot ⊢
                        omega) hk2 hh2
                  refine ⟨ndR, hdone, fun k hkr => ?_⟩
                  rw [hpresR k hkr, hpres2 k hkr]

/-- C5 (amended): on a graph with nonnegative weights whose every neighbour
key is a node key, querying node keys `src ≠ dst` with `dst` unreachable from
`src` returns exactly the single-element path `dst`, with no error signalled:
the predecessor chain of `dst` is never touched. -/
theorem dijkstra_unreachable (g : Graph) (src dst : Node)
    (hcl : closedB g = true) (hnn : nonnegB g = true)
    (hs : src ∈ dkeys g) (hd : dst ∈ dkeys g) (hsd : src ≠ dst)
    (hunreach : ¬ Reach g src dst) :
    dijkstra g src dst = .ok dst := by
  unfold dijkstra dijkstraWith
  rw [dlookup_initND_mem g src hs]
  dsimp only
  obtain ⟨ndR, hdl, hpres⟩ := dloop_done_B g src dst hcl hsd (enoughFuel g)
    (dset (initND g) src ⟨0, []⟩) [] [(0, src)]
    (by unfold potential enoughFuel; rw [remDeg_nil]; simp)
    (dkeys_init_dset g src hs _)
    (by
      intro e he
      have : e = ((0 : Int), src) := by simpa using he
      rw [this]
      exact ⟨hs, reach_refl g src⟩)
  rw [hdl]
  dsimp only
  have hlook : dlookup ndR dst = some ⟨inf, []⟩ := by
    rw [hpres dst hunreach, dlookup_dset_ne _ _ (Ne.symm hsd)]
    exact dlookup_initND_mem g dst hd
  rw [hlook]
  dsimp only
  rfl

/-- Witness for C5 on a two-node edgeless graph. -/
theorem dijkstra_unreachable_witness :
    dijkstra [("A", []), ("B", [])] "A" "B" = .ok "B" := by
  apply dijkstra_unreachable [("A", []), ("B", [])] "A" "B"
    (by decide) (by decide) (by decide) (by decide) (by decide)
  rintro ⟨p, hp⟩
  unfold isPathB at hp
  rw [Bool.and_eq_true, Bool.and_eq_true] at hp
  obtain ⟨⟨h1, h2⟩, h3⟩ := hp
  rw [beq_iff_eq] at h1 h2
  cases p with
  | nil => simp at h1
  | cons x xs =>
      have hx : x = "A" := by simpa using h1
      subst hx
      cases xs with
      | nil => simp at h2
      | cons y ys =>
          rw [chainB, Bool.and_eq_true] at h3
          have := h3.1
          simp [edgeW, dlookup] at this

/-- Counterexample to C5 as stated: the graph `{A: {X: 1}, B: {}}` has
nonnegative weights and node keys `A ≠ B` with `B` unreachable from `A`, yet
`dijkstra` raises a `KeyError` (at `node_data['X']`, since the neighbour `X`
is not a node key) instead of returning the path `B`. -/
theorem dijkstra_unreachable_cex :
    nonnegB [("A", [("X", 1)]), ("B", [])] = true ∧
    "A" ∈ dkeys [("A", [("X", 1)]), ("B", [])] ∧
    "B" ∈ dkeys [("A", [("X", 1)]), ("B", [])] ∧
    "A" ≠ "B" ∧
    ¬ Reach [("A", [("X", 1)]), ("B", [])] "A" "B" ∧
    dijkstra [("A", [("X", 1)]), ("B", [])] "A" "B" = .keyError := by
  refine ⟨by decide, by decide, by decide, by decide, ?_, by decide⟩
  rintro ⟨p, hp⟩
  unfold isPathB at hp
  rw [Bool.and_eq_true, Bool.and_eq_true] at hp
  obtain ⟨⟨h1, h2⟩, h3⟩ := hp
  rw [beq_iff_eq] at h1 h2
  cases p with
  | nil => simp at h1
  | cons x xs =>
      have hx : x = "A" := by simpa using h1
      subst hx
      cases xs with
      | nil => simp at h2
      | cons y ys =>
          rw [chainB, Bool.and_eq_true] at h3
          obtain ⟨he, hch⟩ := h3
          have hy : y = "X" := by
            by_contra hne
            have : ("X" : String) ≠ y := fun hc => hne hc.symm
            simp [edgeW, dlookup, this] at he
          subst hy
          cases ys with
          | nil => simp at h2
          | cons z zs =>
              rw [chainB, Bool.and_eq_true] at hch
              have hdead := hch.1
              simp [edgeW, dlookup] at hdead

/-- C9: on a closed graph with both endpoints present, the graph object left
behind by a `dijkstra` run is exactly the input graph: queries never mutate
the graph. -/
theorem dijkstra_graph_readonly (g : Graph) (src dst : Node)
    (hcl : closedB g = true) (hs : src ∈ dkeys g) (hd : dst ∈ dkeys g) :
    dijkstraFinalGraph g src dst = some g := by
  unfold dijkstraFinalGraph
  rw [dlookup_initND_mem g src hs]
  dsimp only
  by_cases hsd : src = dst
  · subst hsd
    have hf : enoughFuel g = (1 + totalDeg g) + 1 := by unfold enoughFuel; omega
    rw [hf, dloop]
    have hpop : heappop [((0 : Int), src)] = some (((0 : Int), src), []) := rfl
    rw [hpop]
    dsimp only
    rw [if_pos rfl]
  · obtain ⟨ndR, hdl, _⟩ := dloop_done_B g src dst hcl hsd (enoughFuel g)
      (dset (initND g) src ⟨0, []⟩) [] [(0, src)]
      (by unfold potential enoughFuel; rw [remDeg_nil]; simp)
      (dkeys_init_dset g src hs _)
      (by
        intro e he
        have : e = ((0 : Int), src) := by simpa using he
        rw [this]
        exact ⟨hs, reach_refl g src⟩)
    rw [hdl]

/-- Witness for C9 on the reference test graph. -/
theorem dijkstra_graph_readonly_witness :
    dijkstraFinalGraph test_graph "A" "F" = some test_graph :=
  dijkstra_graph_readonly test_graph "A" "F" (by decide) (by decide) (by decide)

/-! #### Path costs and the first-unvisited split -/

/-- A neighbour entry of a graph with nonnegative weights has a nonnegative
weight. -/
theorem nonneg_mem_w {g : Graph} (hnn : nonnegB g = true) {a : Node}
    {nbrs : Nbrs} (ha : dlookup g a = some nbrs) {b : Node} {w : Int}
    (hb : (b, w) ∈ nbrs) : 0 ≤ w := by
  unfold nonnegB at hnn
  rw [List.all_eq_true] at hnn
  have h1 := hnn (a, nbrs) (dlookup_mem ha)
  rw [List.all_eq_true] at h1
  have h2 := h1 (b, w) hb
  simpa using h2

/-- Every edge weight of a graph with nonnegative weights is nonnegative. -/
theorem nonneg_edge {g : Graph} (hnn : nonnegB g = true) {a b : Node} {w : Int}
    (he : edgeW g a b = some w) : 0 ≤ w := by
  unfold edgeW at he
  cases ha : dlookup g a with
  | none => rw [ha] at he; simp at he
  | some nbrs =>
      rw [ha] at he
      dsimp only [Option.bind] at he
      exact nonneg_mem_w hnn ha (dlookup_mem he)

/-- A chain through a graph with nonnegative weights has nonnegative total
cost. -/
theorem costB_nonneg {g : Graph} (hnn : nonnegB g = true) :
    ∀ q : List Node, chainB g q = true → 0 ≤ costB g q
  | [], _ => by simp [costB]
  | [_], _ => by simp [costB]
  | a :: b :: rest, hch => by
      rw [chainB, Bool.and_eq_true] at hch
      obtain ⟨he, hch2⟩ := hch
      obtain ⟨w, hw⟩ := Option.isSome_iff_exists.mp he
      have hw0 := nonneg_edge hnn hw
      have ih := costB_nonneg hnn (b :: rest) hch2
      show 0 ≤ (edgeW g a b).getD 0 + costB g (b :: rest)
      rw [hw]
      simpa using add_nonneg hw0 ih

/-- Prepending a node along an existing edge to a nonempty chain. -/
theorem chainB_cons {g : Graph} {a b : Node} (he : (edgeW g a b).isSome = true)
    {q : List Node} (hq : q.head? = some b) (hch : chainB g q = true) :
    chainB g (a :: q) = true := by
  cases q with
  | nil => simp at hq
  | cons x rest =>
      have hb : x = b := by simpa using hq
      subst b
      show ((edgeW g a x).isSome && chainB g (x :: rest)) = true
      rw [Bool.and_eq_true]
      exact ⟨he, hch⟩

/-- Cost of a chain extended at the front. -/
theorem costB_cons (g : Graph) (a : Node) {q : List Node} {b : Node}
    (hq : q.head? = some b) :
    costB g (a :: q) = (edgeW g a b).getD 0 + costB g q := by
  cases q with
  | nil => simp at hq
  | cons x rest =>
      have hb : x = b := by simpa using hq
      subst hb
      rfl

/-- Cost of a chain extended by one node at the back. -/
theorem costB_append_last (g : Graph) (j : Node) :
    ∀ (p : List Node) (v : Node), p.getLast? = some v →
      costB g (p ++ [j]) = costB g p + (edgeW g v j).getD 0
  | [], v, hlast => by simp at hlast
  | [a], v, hlast => by
      have hav : a = v := by simpa using hlast
      subst hav
      show (edgeW g a j).getD 0 + 0 = 0 + (edgeW g a j).getD 0
      omega
  | a :: b :: rest, v, hlast => by
      have hlast' : (b :: rest).getLast? = some v := by
        rw [← hlast]
        exact (List.getLast?_cons_cons ..).symm
      have ih := costB_append_last g j (b :: rest) v hlast'
      show (edgeW g a b).getD 0 + costB g (b :: rest ++ [j]) =
        (edgeW g a b).getD 0 + costB g (b :: rest) + (edgeW g v j).getD 0
      rw [ih]
      omega

/-- The head survives appending at the back. -/
theorem head_append_single {p : List Node} {s : Node} (j : Node)
    (h : p.head? = some s) : (p ++ [j]).head? = some s := by
  cases p with
  | nil => simp at h
  | cons x xs => simpa using h

/-- Splitting a partly-visited chain at the first unvisited node: there is a
prefix chain to a visited node `v`, an edge from `v` to an unvisited `u`, and
the prefix cost plus that edge weight is at most the whole chain's cost. -/
theorem path_split (g : Graph) (hnn : nonnegB g = true) (visited : List Node) :
    ∀ (q : List Node) (a k : Node), chainB g (a :: q) = true →
      (a :: q).getLast? = some k → a ∈ visited → k ∉ visited →
      ∃ (q₁ : List Node) (v u : Node) (w : Int),
        v ∈ visited ∧ u ∉ visited ∧ edgeW g v u = some w ∧
        (q₁.head? = some a ∧ q₁.getLast? = some v ∧ chainB g q₁ = true) ∧
        costB g q₁ + w ≤ costB g (a :: q)
  | [], a, k, _, hlast, hav, hknv => by
      have : a = k := by simpa using hlast
      subst this
      exact absurd hav hknv
  | b :: q', a, k, hch, hlast, hav, hknv => by
      rw [chainB, Bool.and_eq_true] at hch
      obtain ⟨he, hch2⟩ := hch
      obtain ⟨w₀, hw₀⟩ := Option.isSome_iff_exists.mp he
      by_cases hbv : b ∈ visited
      · have hlast' : (b :: q').getLast? = some k := by
          rw [← hlast]
          exact (List.getLast?_cons_cons ..).symm
        obtain ⟨q₁, v, u, w, hv, hu, hew, ⟨hh, hl, hc⟩, hcost⟩ :=
          path_split g hnn visited q' b k hch2 hlast' hbv hknv
        refine ⟨a :: q₁, v, u, w, hv, hu, hew, ⟨rfl, ?_, ?_⟩, ?_⟩
        · cases q₁ with
          | nil => simp at hh
          | cons x xs =>
              rw [List.getLast?_cons_cons]
              exact hl
        · exact chainB_cons he hh hc
        · have hc1 : costB g (a :: q₁) = (edgeW g a b).getD 0 + costB g q₁ := by
            have hhb : q₁.head? = some b := hh
            exact costB_cons g a hhb
          have hc2 : costB g (a :: b :: q') =
              (edgeW g a b).getD 0 + costB g (b :: q') := rfl
          rw [hc1, hc2]
          omega
      · refine ⟨[a], a, b, w₀, hav, hbv, hw₀, ⟨rfl, by simp, rfl⟩, ?_⟩
        have h0 : costB g ([a] : List Node) = 0 := rfl
        have h2 : costB g (a :: b :: q') =
            (edgeW g a b).getD 0 + costB g (b :: q') := rfl
        have hnn2 := costB_nonneg hnn (b :: q') hch2
        rw [h0, h2, hw₀]
        simp only [Option.getD_some]
        omega

/-- A non-smaller entry has a non-smaller cost component. -/
theorem entLt_false_fst {a b : Entry} (h : entLt a b = false) : b.1 ≤ a.1 := by
  by_contra hlt
  push_neg at hlt
  have := (entLt_iff a b).mpr (Or.inl hlt)
  rw [h] at this
  exact absurd this (by simp)

/-- Keys with no duplicates make membership determine the lookup. -/
theorem dlookup_of_mem_nodup {α : Type} :
    ∀ {d : List (Node × α)}, (d.map Prod.fst).Nodup →
      ∀ {k : Node} {v : α}, (k, v) ∈ d → dlookup d k = some v
  | [], _, _, _, h => by simp at h
  | (k', v') :: rest, hnd, k, v, h => by
      rw [List.map_cons, List.nodup_cons] at hnd
      rcases List.mem_cons.mp h with heq | hmem
      · rw [Prod.mk.injEq] at heq
        unfold dlookup
        rw [if_pos heq.1.symm, heq.2]
      · have hne : k' ≠ k := by
          intro hc
          subst hc
          exact hnd.1 (List.mem_map.mpr ⟨(k', v), hmem, rfl⟩)
        unfold dlookup
        rw [if_neg hne]
        exact dlookup_of_mem_nodup hnd.2 hmem

/-- The neighbour dict of any node of a duplicate-free graph has no duplicate
keys. -/
theorem innerNodup_mem {g : Graph} (hnd : innerNodupB g = true) {a : Node}
    {nbrs : Nbrs} (ha : dlookup g a = some nbrs) : (nbrs.map Prod.fst).Nodup := by
  unfold innerNodupB at hnd
  rw [List.all_eq_true] at hnd
  have h1 := hnd (a, nbrs) (dlookup_mem ha)
  simpa using h1

/-- The inner relaxation loop preserves the full Dijkstra invariant: it
succeeds, keeps the keys, freezes the data of visited nodes, never raises a
cost, keeps every cost bounded by `inf` and witnessed by an actual path of
that exact cost when finite, keeps heap entries sound (node key present,
recorded cost at most the entry key), only grows the heap content, records a
frontier entry for every unvisited neighbour, and preserves the heap shape. -/
theorem relaxAll_A (g : Graph) (src temp : Node) (visited : List Node)
    (hcl : closedB g = true) (hnn : nonnegB g = true)
    (hnd : innerNodupB g = true) (htv : temp ∈ visited) (nbrsFull : Nbrs)
    (hFull : dlookup g temp = some nbrsFull) :
    ∀ (nbrs : Nbrs), (∀ jw ∈ nbrs, jw ∈ nbrsFull) →
      ∀ (nd : NDList) (heap : List Entry),
      dkeys nd = dkeys g →
      (∀ k info, dlookup nd k = some info → info.cost ≤ inf) →
      (∀ k info, dlookup nd k = some info → info.cost < inf →
        isPathB g src k (info.pred ++ [k]) = true ∧
        costB g (info.pred ++ [k]) = info.cost) →
      (∀ c k, ((c, k) : Entry) ∈ heap →
        k ∈ dkeys g ∧ ∃ info, dlookup nd k = some info ∧ info.cost ≤ c) →
      heapInv heap →
      ∃ nd' heap', relaxAll temp visited nbrs nd heap = some (nd', heap') ∧
        dkeys nd' = dkeys g ∧
        (∀ v ∈ visited, dlookup nd' v = dlookup nd v) ∧
        (∀ k info info', dlookup nd k = some info → dlookup nd' k = some info' →
          info'.cost ≤ info.cost) ∧
        (∀ k info, dlookup nd' k = some info → info.cost ≤ inf) ∧
        (∀ k info, dlookup nd' k = some info → info.cost < inf →
          isPathB g src k (info.pred ++ [k]) = true ∧
          costB g (info.pred ++ [k]) = info.cost) ∧
        (∀ c k, ((c, k) : Entry) ∈ heap' →
          k ∈ dkeys g ∧ ∃ info, dlookup nd' k = some info ∧ info.cost ≤ c) ∧
        (∀ e ∈ heap, e ∈ heap') ∧
        (∀ j w, (j, w) ∈ nbrs → j ∉ visited →
          ∃ c, ((c, j) : Entry) ∈ heap' ∧
            ∀ ti, dlookup nd temp = some ti → c ≤ ti.cost + w) ∧
        heapInv heap'
  | [], _, nd, heap, hK, hB, hS, hHS, hHI =>
      ⟨nd, heap, by unfold relaxAll; rfl, hK, fun _ _ => rfl,
        fun k info info' h1 h2 => by
          rw [h1, Option.some.injEq] at h2
          exact le_of_eq (congrArg NData.cost h2.symm),
        hB, hS, hHS, fun e he => he,
        fun j w hjw _ => by simp at hjw, hHI⟩
  | (j, w) :: rest, hsub, nd, heap, hK, hB, hS, hHS, hHI => by
      by_cases hjv : j ∈ visited
      · obtain ⟨nd2, heap2, hrel, hK2, hF2, hM2, hB2, hS2, hHS2, hHG2, hFR2, hHI2⟩ :=
          relaxAll_A g src temp visited hcl hnn hnd htv nbrsFull hFull rest
            (fun jw hjw => hsub jw (List.mem_cons_of_mem _ hjw)) nd heap
            hK hB hS hHS hHI
        refine ⟨nd2, heap2, ?_, hK2, hF2, hM2, hB2, hS2, hHS2, hHG2, ?_, hHI2⟩
        · unfold relaxAll
          rw [if_pos hjv]
          exact hrel
        · intro j' w' hjw' hj'nv
          rcases List.mem_cons.mp hjw' with heq | hmem
          · rw [Prod.mk.injEq] at heq
            exact absurd (show j' ∈ visited by rw [heq.1]; exact hjv) hj'nv
          · exact hFR2 j' w' hmem hj'nv
      · have hjmem : (j, w) ∈ nbrsFull := hsub (j, w) (List.mem_cons_self _ _)
        have hjkeys : j ∈ dkeys g := closedB_mem hcl hFull hjmem
        have htkeys : temp ∈ dkeys g :=
          (dlookup_isSome_iff g temp).mp (by simp [hFull])
        obtain ⟨ti, hti⟩ := Option.isSome_iff_exists.mp
          ((dlookup_isSome_iff nd temp).mpr (by rwa [hK]))
        obtain ⟨ji, hji⟩ := Option.isSome_iff_exists.mp
          ((dlookup_isSome_iff nd j).mpr (by rwa [hK]))
        have htine : temp ≠ j := fun hc => hjv (hc ▸ htv)
        have hwnn : 0 ≤ w := nonneg_mem_w hnn hFull hjmem
        have hjiinf : ji.cost ≤ inf := hB j ji hji
        by_cases hcond : ti.cost + w < ji.cost
        · -- the update branch: node_data[j] is rewritten and the new cost
          -- is pushed
          have hticost : ti.cost < inf := by omega
          have hedge : edgeW g temp j = some w := by
            unfold edgeW
            rw [hFull]
            exact dlookup_of_mem_nodup (innerNodup_mem hnd hFull) hjmem
          obtain ⟨hpathT, hcostT⟩ := hS temp ti hti hticost
          have hp := hpathT
          unfold isPathB at hp
          rw [Bool.and_eq_true, Bool.and_eq_true] at hp
          obtain ⟨⟨hh, hl⟩, hc⟩ := hp
          rw [beq_iff_eq] at hh hl
          have hpathJ : isPathB g src j ((ti.pred ++ [temp]) ++ [j]) = true := by
            unfold isPathB
            rw [Bool.and_eq_true, Bool.and_eq_true]
            refine ⟨⟨?_, ?_⟩, chainB_append g j _ temp hc hl (by rw [hedge]; rfl)⟩
            · rw [beq_iff_eq]
              exact head_append_single j hh
            · rw [beq_iff_eq]
              exact List.getLast?_concat _
          have hcostJ : costB g ((ti.pred ++ [temp]) ++ [j]) = ti.cost + w := by
            rw [costB_append_last g j _ temp hl, hcostT, hedge]
            simp only [Option.getD_some]
          have hK' : dkeys (dset nd j ⟨ti.cost + w, ti.pred ++ [temp]⟩) = dkeys g := by
            rw [dkeys_dset, if_pos ((dlookup_isSome_iff nd j).mp (by simp [hji]))]
            exact hK
          have hB' : ∀ k info,
              dlookup (dset nd j ⟨ti.cost + w, ti.pred ++ [temp]⟩) k = some info →
              info.cost ≤ inf := by
            intro k info hlk
            by_cases hkj : k = j
            · subst hkj
              rw [dlookup_dset_self, Option.some.injEq] at hlk
              rw [← hlk]
              show ti.cost + w ≤ inf
              omega
            · rw [dlookup_dset_ne _ _ hkj] at hlk
              exact hB k info hlk
          have hS' : ∀ k info,
              dlookup (dset nd j ⟨ti.cost + w, ti.pred ++ [temp]⟩) k = some info →
              info.cost < inf →
              isPathB g src k (info.pred ++ [k]) = true ∧
                costB g (info.pred ++ [k]) = info.cost := by
            intro k info hlk hcinf
            by_cases hkj : k = j
            · subst hkj
              rw [dlookup_dset_self, Option.some.injEq] at hlk
              rw [← hlk]
              exact ⟨hpathJ, hcostJ⟩
            · rw [dlookup_dset_ne _ _ hkj] at hlk
              exact hS k info hlk hcinf
          have hti' :
              dlookup (dset nd j ⟨ti.cost + w, ti.pred ++ [temp]⟩) temp = some ti := by
            rw [dlookup_dset_ne _ _ htine]
            exact hti
          have hHS' : ∀ c k, ((c, k) : Entry) ∈ heappush heap (ti.cost + w, j) →
              k ∈ dkeys g ∧ ∃ info,
                dlookup (dset nd j ⟨ti.cost + w, ti.pred ++ [temp]⟩) k = some info ∧
                info.cost ≤ c := by
            intro c k hck
            have hmem : ((c, k) : Entry) ∈
                (((ti.cost + w, j) : Entry) ::ₘ (heap : Multiset Entry)) := by
              rw [← (ms_heappush heap (ti.cost + w, j)).1]
              exact hck
            rw [Multiset.mem_cons] at hmem
            rcases hmem with heq | hmem
            · rw [Prod.mk.injEq] at heq
              obtain ⟨hc1, hk1⟩ := heq
              subst hk1
              refine ⟨hjkeys, ⟨ti.cost + w, ti.pred ++ [temp]⟩, dlookup_dset_self .., ?_⟩
              show ti.cost + w ≤ c
              omega
            · obtain ⟨hkk, info, hlinfo, hcle⟩ := hHS c k hmem
              refine ⟨hkk, ?_⟩
              by_cases hkj : k = j
              · subst hkj
                rw [hji, Option.some.injEq] at hlinfo
                refine ⟨⟨ti.cost + w, ti.pred ++ [temp]⟩, dlookup_dset_self .., ?_⟩
                show ti.cost + w ≤ c
                rw [← hlinfo] at hcle
                omega
              · rw [dlookup_dset_ne _ _ hkj]
                exact ⟨info, hlinfo, hcle⟩
          obtain ⟨nd2, heap2, hrel, hK2, hF2, hM2, hB2, hS2, hHS2, hHG2, hFR2, hHI2⟩ :=
            relaxAll_A g src temp visited hcl hnn hnd htv nbrsFull hFull rest
              (fun jw hjw => hsub jw (List.mem_cons_of_mem _ hjw))
              (dset nd j ⟨ti.cost + w, ti.pred ++ [temp]⟩)
              (heappush heap (ti.cost + w, j))
              hK' hB' hS' hHS' (heappush_inv heap _ hHI)
          refine ⟨nd2, heap2, ?_, hK2, ?_, ?_, hB2, hS2, hHS2, ?_, ?_, hHI2⟩
          · unfold relaxAll
            rw [if_neg hjv, hti, hji]
            dsimp only
            rw [if_pos hcond, if_pos hcond]
            exact hrel
          · intro v hv
            rw [hF2 v hv, dlookup_dset_ne _ _ (fun hc => hjv (by rw [← hc]; exact hv))]
          · intro k info info' hlk hlk2
            by_cases hkj : k = j
            · subst k
              have hset : dlookup (dset nd j ⟨ti.cost + w, ti.pred ++ [temp]⟩) j =
                  some ⟨ti.cost + w, ti.pred ++ [temp]⟩ := dlookup_dset_self ..
              have h2 := hM2 j ⟨ti.cost + w, ti.pred ++ [temp]⟩ info' hset hlk2
              have h2' : info'.cost ≤ ti.cost + w := h2
              rw [hji, Option.some.injEq] at hlk
              rw [← hlk]
              omega
            · have hlk' : dlookup (dset nd j ⟨ti.cost + w, ti.pred ++ [temp]⟩) k =
                  some info := by
                rw [dlookup_dset_ne _ _ hkj]
                exact hlk
              exact hM2 k info info' hlk' hlk2
          · intro e he
            apply hHG2
            have : e ∈ ((heappush heap (ti.cost + w, j) : List Entry) :
                Multiset Entry) := by
              rw [(ms_heappush heap (ti.cost + w, j)).1]
              exact Multiset.mem_cons_of_mem he
            exact this
          · intro j' w' hjw' hj'nv
            rcases List.mem_cons.mp hjw' with heq | hmem
            · rw [Prod.mk.injEq] at heq
              rw [heq.1, heq.2]
              refine ⟨ti.cost + w, ?_, ?_⟩
              · apply hHG2
                have : ((ti.cost + w, j) : Entry) ∈
                    ((heappush heap (ti.cost + w, j) : List Entry) :
                      Multiset Entry) := by
                  rw [(ms_heappush heap (ti.cost + w, j)).1]
                  exact Multiset.mem_cons_self _ _
                exact this
              · intro ti₀ hti₀
                rw [hti, Option.some.injEq] at hti₀
                rw [← hti₀]
            · obtain ⟨c, hcheap2, hcb⟩ := hFR2 j' w' hmem hj'nv
              refine ⟨c, hcheap2, ?_⟩
              intro ti₀ hti₀
              rw [hti, Option.some.injEq] at hti₀
              rw [← hti₀]
              exact hcb ti hti'
        · -- no update: the current cost of `j` is pushed unchanged
          have hHS' : ∀ c k, ((c, k) : Entry) ∈ heappush heap (ji.cost, j) →
              k ∈ dkeys g ∧ ∃ info, dlookup nd k = some info ∧ info.cost ≤ c := by
            intro c k hck
            have hmem : ((c, k) : Entry) ∈
                (((ji.cost, j) : Entry) ::ₘ (heap : Multiset Entry)) := by
              rw [← (ms_heappush heap (ji.cost, j)).1]
              exact hck
            rw [Multiset.mem_cons] at hmem
            rcases hmem with heq | hmem
            · rw [Prod.mk.injEq] at heq
              obtain ⟨hc1, hk1⟩ := heq
              subst hk1
              refine ⟨hjkeys, ji, hji, ?_⟩
              omega
            · exact hHS c k hmem
          obtain ⟨nd2, heap2, hrel, hK2, hF2, hM2, hB2, hS2, hHS2, hHG2, hFR2, hHI2⟩ :=
            relaxAll_A g src temp visited hcl hnn hnd htv nbrsFull hFull rest
              (fun jw hjw => hsub jw (List.mem_cons_of_mem _ hjw))
              nd (heappush heap (ji.cost, j))
              hK hB hS hHS' (heappush_inv heap _ hHI)
          refine ⟨nd2, heap2, ?_, hK2, hF2, hM2, hB2, hS2, hHS2, ?_, ?_, hHI2⟩
          · unfold relaxAll
            rw [if_neg hjv, hti, hji]
            dsimp only
            rw [if_neg hcond, if_neg hcond]
            exact hrel
          · intro e he
            apply hHG2
            have : e ∈ ((heappush heap (ji.cost, j) : List Entry) :
                Multiset Entry) := by
              rw [(ms_heappush heap (ji.cost, j)).1]
              exact Multiset.mem_cons_of_mem he
            exact this
          · intro j' w' hjw' hj'nv
            rcases List.mem_cons.mp hjw' with heq | hmem
            · rw [Prod.mk.injEq] at heq
              rw [heq.1, heq.2]
              refine ⟨ji.cost, ?_, ?_⟩
              · apply hHG2
                have : ((ji.cost, j) : Entry) ∈
                    ((heappush heap (ji.cost, j) : List Entry) :
                      Multiset Entry) := by
                  rw [(ms_heappush heap (ji.cost, j)).1]
                  exact Multiset.mem_cons_self _ _
                exact this
              · intro ti₀ hti₀
                rw [hti, Option.some.injEq] at hti₀
                rw [← hti₀]
                omega
            · exact hFR2 j' w' hmem hj'nv

/-- The master loop invariant carried to completion: on a closed, nonnegative,
duplicate-free graph with `src ≠ dst` and `src` already visited, the loop
finishes with the same graph object; every final record of finite cost is
witnessed by an actual path from `src` of exactly that cost, and every node
that some path reaches with cost below `inf` ends with a recorded cost at most
that path's cost. -/
theorem dloop_A (g : Graph) (src dst : Node) (hcl : closedB g = true)
    (hnn : nonnegB g = true) (hnd : innerNodupB g = true) (hsd : src ≠ dst) :
    ∀ (fuel : Nat) (nd : NDList) (visited : List Node) (heap : List Entry),
      potential g visited heap < fuel →
      src ∈ visited →
      (∀ v ∈ visited, v ∈ dkeys g) →
      dkeys nd = dkeys g →
      (∀ k info, dlookup nd k = some info → info.cost ≤ inf) →
      (∀ k info, dlookup nd k = some info → info.cost < inf →
        isPathB g src k (info.pred ++ [k]) = true ∧
        costB g (info.pred ++ [k]) = info.cost) →
      (∀ v ∈ visited, ∀ info, dlookup nd v = some info →
        ∀ q, isPathB g src v q = true → info.cost ≤ costB g q) →
      (∀ c k, ((c, k) : Entry) ∈ heap →
        k ∈ dkeys g ∧ ∃ info, dlookup nd k = some info ∧ info.cost ≤ c) →
      (∀ v ∈ visited, ∀ j w, edgeW g v j = some w → j ∉ visited →
        ∃ c, ((c, j) : Entry) ∈ heap ∧
          ∀ info, dlookup nd v = some info → c ≤ info.cost + w) →
      heapInv heap →
      ∃ ndR, dloop src dst fuel g nd visited heap = .done g ndR ∧
        dkeys ndR = dkeys g ∧
        (∀ k info, dlookup ndR k = some info → info.cost < inf →
          isPathB g src k (info.pred ++ [k]) = true ∧
          costB g (info.pred ++ [k]) = info.cost) ∧
        (∀ k q, isPathB g src k q = true → costB g q < inf →
          ∃ info, dlookup ndR k = some info ∧ info.cost ≤ costB g q)
  | 0, nd, visited, heap => by
      intro hpot
      unfold potential at hpot
      omega
  | fuel + 1, nd, visited, heap => by
      intro hpot hsv hvk hK hB hS hVIS hHS hFR hHI
      rw [dloop]
      cases hp : heappop heap with
      | none =>
          have hemp : heap = [] := (heappop_none_iff heap).mp hp
          refine ⟨nd, rfl, hK, hS, ?_⟩
          intro k q hq hqinf
          by_cases hkv : k ∈ visited
          · obtain ⟨info, hinfo⟩ := Option.isSome_iff_exists.mp
              ((dlookup_isSome_iff nd k).mpr (by rw [hK]; exact hvk k hkv))
            exact ⟨info, hinfo, hVIS k hkv info hinfo q hq⟩
          · exfalso
            have hq2 := hq
            unfold isPathB at hq2
            rw [Bool.and_eq_true, Bool.and_eq_true] at hq2
            obtain ⟨⟨hh, hl⟩, hc⟩ := hq2
            rw [beq_iff_eq] at hh hl
            cases q with
            | nil => simp at hh
            | cons a q' =>
                have ha : a = src := by simpa using hh
                subst a
                obtain ⟨q₁, v, u, w, hv, hu, hew, _, _⟩ :=
                  path_split g hnn visited q' src k hc hl hsv hkv
                obtain ⟨cu, hcu, _⟩ := hFR v hv u w hew hu
                rw [hemp] at hcu
                simp at hcu
      | some pr =>
          obtain ⟨⟨c, temp⟩, heap'⟩ := pr
          obtain ⟨hms, hplen⟩ := ms_heappop hp
          have hpt : ((c, temp) : Entry) ∈ heap := by
            have : ((c, temp) : Entry) ∈ (heap : Multiset Entry) := by
              rw [hms]
              exact Multiset.mem_cons_self _ _
            exact this
          have hHIp : heapInv heap' := heappop_inv hHI hp
          have hHSp : ∀ c' k, ((c', k) : Entry) ∈ heap' →
              k ∈ dkeys g ∧ ∃ info, dlookup nd k = some info ∧ info.cost ≤ c' := by
            intro c' k hck
            apply hHS
            have : ((c', k) : Entry) ∈ (heap : Multiset Entry) := by
              rw [hms]
              exact Multiset.mem_cons_of_mem hck
            exact this
          dsimp only
          rw [if_neg hsd]
          by_cases htv : temp ∈ visited
          · rw [if_pos htv]
            have hFRp : ∀ v ∈ visited, ∀ j w, edgeW g v j = some w → j ∉ visited →
                ∃ c', ((c', j) : Entry) ∈ heap' ∧
                  ∀ info, dlookup nd v = some info → c' ≤ info.cost + w := by
              intro v hv j w hew hjnv
              obtain ⟨c', hc'h, hc'b⟩ := hFR v hv j w hew hjnv
              refine ⟨c', ?_, hc'b⟩
              have hin : ((c', j) : Entry) ∈
                  (((c, temp) : Entry) ::ₘ (heap' : Multiset Entry)) := by
                rw [← hms]
                exact hc'h
              rw [Multiset.mem_cons] at hin
              rcases hin with heq | hin
              · rw [Prod.mk.injEq] at heq
                exact absurd (show j ∈ visited by rw [heq.2]; exact htv) hjnv
              · exact hin
            exact dloop_A g src dst hcl hnn hnd hsd fuel nd visited heap'
              (by unfold potential at hpot ⊢; omega)
              hsv hvk hK hB hS hVIS hHSp hFRp hHIp
          · rw [if_neg htv]
            obtain ⟨htkg, tinfo, htinfo, htc⟩ := hHS c temp hpt
            have hVISt : ∀ info, dlookup nd temp = some info →
                ∀ q, isPathB g src temp q = true → info.cost ≤ costB g q := by
              intro info hinfo q hq
              rw [htinfo, Option.some.injEq] at hinfo
              subst info
              by_cases hqinf : costB g q < inf
              · have hq2 := hq
                unfold isPathB at hq2
                rw [Bool.and_eq_true, Bool.and_eq_true] at hq2
                obtain ⟨⟨hh, hl⟩, hc2⟩ := hq2
                rw [beq_iff_eq] at hh hl
                cases q with
                | nil => simp at hh
                | cons a q' =>
                    have ha : a = src := by simpa using hh
                    subst a
                    obtain ⟨q₁, v, u, w, hv, hu, hew, ⟨hh1, hl1, hc1⟩, hcost1⟩ :=
                      path_split g hnn visited q' src temp hc2 hl hsv htv
                    obtain ⟨cu, hcu, hcub⟩ := hFR v hv u w hew hu
                    obtain ⟨infov, hinfov⟩ := Option.isSome_iff_exists.mp
                      ((dlookup_isSome_iff nd v).mpr (by rw [hK]; exact hvk v hv))
                    have hq₁path : isPathB g src v q₁ = true := by
                      unfold isPathB
                      rw [Bool.and_eq_true, Bool.and_eq_true]
                      exact ⟨⟨by rw [beq_iff_eq]; exact hh1,
                        by rw [beq_iff_eq]; exact hl1⟩, hc1⟩
                    have hvmin := hVIS v hv infov hinfov q₁ hq₁path
                    have hcub' := hcub infov hinfov
                    have hmin := heappop_min hHI hp (cu, u) hcu
                    have hcle : c ≤ cu := entLt_false_fst hmin
                    omega
              · push_neg at hqinf
                have := hB temp tinfo htinfo
                omega
            have hsv' : src ∈ visited ++ [temp] := List.mem_append_left _ hsv
            have hvk' : ∀ v ∈ visited ++ [temp], v ∈ dkeys g := by
              intro v hv
              rcases List.mem_append.mp hv with h | h
              · exact hvk v h
              · rw [List.mem_singleton.mp h]
                exact htkg
            have hVIS' : ∀ v ∈ visited ++ [temp], ∀ info, dlookup nd v = some info →
                ∀ q, isPathB g src v q = true → info.cost ≤ costB g q := by
              intro v hv
              rcases List.mem_append.mp hv with h | h
              · exact hVIS v h
              · rw [List.mem_singleton.mp h]
                exact hVISt
            cases hlk : dlookup g temp with
            | none =>
                exact absurd ((dlookup_isSome_iff g temp).mpr htkg) (by simp [hlk])
            | some neighbours =>
                dsimp only
                by_cases hemp2 : neighbours.isEmpty
                · rw [if_pos hemp2]
                  have hFRe : ∀ v ∈ visited ++ [temp], ∀ j w, edgeW g v j = some w →
                      j ∉ visited ++ [temp] →
                      ∃ c', ((c', j) : Entry) ∈ heap' ∧
                        ∀ info, dlookup nd v = some info → c' ≤ info.cost + w := by
                    intro v hv j w hew hjnv
                    have hjnv0 : j ∉ visited :=
                      fun hc => hjnv (List.mem_append_left _ hc)
                    have hjne : j ≠ temp := fun hc =>
                      hjnv (by
                        rw [hc]
                        exact List.mem_append_right _ (List.mem_cons_self _ _))
                    rcases List.mem_append.mp hv with h | h
                    · obtain ⟨c', hc'h, hc'b⟩ := hFR v h j w hew hjnv0
                      refine ⟨c', ?_, hc'b⟩
                      have hin : ((c', j) : Entry) ∈
                          (((c, temp) : Entry) ::ₘ (heap' : Multiset Entry)) := by
                        rw [← hms]
                        exact hc'h
                      rw [Multiset.mem_cons] at hin
                      rcases hin with heq | hin
                      · rw [Prod.mk.injEq] at heq
                        exact absurd heq.2 hjne
                      · exact hin
                    · exfalso
                      rw [List.mem_singleton.mp h] at hew
                      unfold edgeW at hew
                      rw [hlk, List.isEmpty_iff.mp hemp2] at hew
                      simp [dlookup] at hew
                  exact dloop_A g src dst hcl hnn hnd hsd fuel nd
                    (visited ++ [temp]) heap'
                    (by
                      unfold potential at hpot ⊢
                      have := remDeg_mono visited (visited ++ [temp])
                        (fun x hx => List.mem_append_left _ hx) g
                      omega)
                    hsv' hvk' hK hB hS hVIS' hHSp hFRe hHIp
                · rw [if_neg hemp2]
                  obtain ⟨nd2, heap2, hrel, hK2, hF2, hM2, hB2, hS2, hHS2, hHG2,
                    hFRrel, hHI2⟩ :=
                    relaxAll_A g src temp (visited ++ [temp]) hcl hnn hnd
                      (List.mem_append_right _ (List.mem_cons_self _ _))
                      neighbours hlk neighbours (fun jw hjw => hjw) nd heap'
                      hK hB hS hHSp hHIp
                  rw [hrel]
                  dsimp only
                  have hndtemp : dlookup nd2 temp = dlookup nd temp :=
                    hF2 temp (List.mem_append_right _ (List.mem_cons_self _ _))
                  have hVIS2 : ∀ v ∈ visited ++ [temp], ∀ info,
                      dlookup nd2 v = some info →
                      ∀ q, isPathB g src v q = true → info.cost ≤ costB g q := by
                    intro v hv info hinfo q hq
                    rw [hF2 v hv] at hinfo
                    exact hVIS' v hv info hinfo q hq
                  have hFR2 : ∀ v ∈ visited ++ [temp], ∀ j w, edgeW g v j = some w →
                      j ∉ visited ++ [temp] →
                      ∃ c', ((c', j) : Entry) ∈ heap2 ∧
                        ∀ info, dlookup nd2 v = some info → c' ≤ info.cost + w := by
                    intro v hv j w hew hjnv
                    have hjnv0 : j ∉ visited :=
                      fun hc => hjnv (List.mem_append_left _ hc)
                    have hjne : j ≠ temp := fun hc =>
                      hjnv (by
                        rw [hc]
                        exact List.mem_append_right _ (List.mem_cons_self _ _))
                    rcases List.mem_append.mp hv with h | h
                    · obtain ⟨c', hc'h, hc'b⟩ := hFR v h j w hew hjnv0
                      have hin : ((c', j) : Entry) ∈
                          (((c, temp) : Entry) ::ₘ (heap' : Multiset Entry)) := by
                        rw [← hms]
                        exact hc'h
                      rw [Multiset.mem_cons] at hin
                      rcases hin with heq | hin
                      · rw [Prod.mk.injEq] at heq
                        exact absurd heq.2 hjne
                      · refine ⟨c', hHG2 _ hin, ?_⟩
                        intro info hinfo
                        rw [hF2 v hv] at hinfo
                        exact hc'b info hinfo
                    · have hvt : v = temp := List.mem_singleton.mp h
                      subst v
                      have hjmem : (j, w) ∈ neighbours := by
                        have hew2 := hew
                        unfold edgeW at hew2
                        rw [hlk] at hew2
                        dsimp only [Option.bind] at hew2
                        exact dlookup_mem hew2
                      obtain ⟨c', hc'h, hc'b⟩ := hFRrel j w hjmem hjnv
                      refine ⟨c', hc'h, ?_⟩
                      intro info hinfo
                      rw [hndtemp] at hinfo
                      exact hc'b info hinfo
                  obtain ⟨_, hlrel⟩ := relaxAll_spec temp (visited ++ [temp])
                    neighbours nd heap' nd2 heap2 hrel
                  exact dloop_A g src dst hcl hnn hnd hsd fuel nd2
                    (visited ++ [temp]) heap2
                    (by
                      have hvst := remDeg_visit temp visited neighbours htv g hlk
                      unfold potential at hpot ⊢
                      omega)
                    hsv' hvk' hK2 hB2 hS2 hVIS2 hHS2 hFR2 hHI2

/-- C2 (amended): on a graph whose edge weights are nonnegative, whose every
neighbour key is itself a node key, and whose neighbour dicts are
duplicate-free (as every Python dict is), for node keys `src` and `dst` joined
by some path of total weight below the `sys.maxsize` sentinel,
`dijkstra(graph, src, dst)` returns the space-join of a path from `src` to
`dst` whose total edge weight is minimal among all paths from `src` to
`dst`. -/
theorem dijkstra_correct (g : Graph) (src dst : Node)
    (hcl : closedB g = true) (hnn : nonnegB g = true)
    (hnd : innerNodupB g = true)
    (hs : src ∈ dkeys g) (hd : dst ∈ dkeys g)
    (hfin : ∃ p₀, isPathB g src dst p₀ = true ∧ costB g p₀ < inf) :
    ∃ p, isPathB g src dst p = true ∧
      dijkstra g src dst = .ok (joinSpace p) ∧
      ∀ q, isPathB g src dst q = true → costB g p ≤ costB g q := by
  by_cases hsd : src = dst
  · subst dst
    refine ⟨[src], by simp [isPathB, chainB], dijkstra_self_eq g src hs, ?_⟩
    intro q hq
    have h0 : costB g [src] = 0 := rfl
    rw [h0]
    unfold isPathB at hq
    rw [Bool.and_eq_true, Bool.and_eq_true] at hq
    exact costB_nonneg hnn q hq.2
  · obtain ⟨p₀, hp₀, hp₀c⟩ := hfin
    have hp2 := hp₀
    unfold isPathB at hp2
    rw [Bool.and_eq_true, Bool.and_eq_true] at hp2
    obtain ⟨⟨hph, hpl⟩, hpc⟩ := hp2
    rw [beq_iff_eq] at hph hpl
    obtain ⟨nbrs₀, hnbrs₀⟩ := Option.isSome_iff_exists.mp
      ((dlookup_isSome_iff g src).mpr hs)
    obtain ⟨b, p₂, hp₀eq⟩ : ∃ b p₂, p₀ = src :: b :: p₂ := by
      cases p₀ with
      | nil => simp at hph
      | cons a p₁ =>
          have ha : a = src := by simpa using hph
          subst a
          cases p₁ with
          | nil =>
              have : src = dst := by simpa using hpl
              exact absurd this hsd
          | cons b p₂ => exact ⟨b, p₂, rfl⟩
    have hne0 : nbrs₀ ≠ [] := by
      intro hnil
      rw [hp₀eq, chainB, Bool.and_eq_true] at hpc
      have hbe := hpc.1
      unfold edgeW at hbe
      rw [hnbrs₀, hnil] at hbe
      simp [dlookup] at hbe
    unfold dijkstra dijkstraWith
    rw [dlookup_initND_mem g src hs]
    dsimp only
    have hf : enoughFuel g = (1 + totalDeg g) + 1 := by unfold enoughFuel; omega
    rw [hf, dloop]
    have hpop : heappop [((0 : Int), src)] = some (((0 : Int), src), []) := rfl
    rw [hpop]
    dsimp only
    rw [if_neg hsd, if_neg (show src ∉ ([] : List Node) by simp)]
    rw [hnbrs₀]
    dsimp only
    rw [if_neg (show ¬ nbrs₀.isEmpty = true from
      fun hc => hne0 (List.isEmpty_iff.mp hc))]
    simp only [List.nil_append]
    have hK0 : dkeys (dset (initND g) src ⟨0, []⟩) = dkeys g :=
      dkeys_init_dset g src hs _
    have hB0 : ∀ k info, dlookup (dset (initND g) src ⟨0, []⟩) k = some info →
        info.cost ≤ inf := by
      intro k info hlk
      by_cases hks : k = src
      · subst k
        rw [dlookup_dset_self, Option.some.injEq] at hlk
        rw [← hlk]
        show (0 : Int) ≤ inf
        decide
      · rw [dlookup_dset_ne _ _ hks, dlookup_initND] at hlk
        cases hg : dlookup g k with
        | none => rw [hg] at hlk; simp at hlk
        | some nb =>
            rw [hg, Option.map_some'] at hlk
            rw [Option.some.injEq] at hlk
            rw [← hlk]
    have hS0 : ∀ k info, dlookup (dset (initND g) src ⟨0, []⟩) k = some info →
        info.cost < inf →
        isPathB g src k (info.pred ++ [k]) = true ∧
        costB g (info.pred ++ [k]) = info.cost := by
      intro k info hlk hcinf
      by_cases hks : k = src
      · subst k
        rw [dlookup_dset_self, Option.some.injEq] at hlk
        rw [← hlk]
        constructor
        · show isPathB g src src ([] ++ [src]) = true
          simp [isPathB, chainB]
        · rfl
      · rw [dlookup_dset_ne _ _ hks, dlookup_initND] at hlk
        cases hg : dlookup g k with
        | none => rw [hg] at hlk; simp at hlk
        | some nb =>
            rw [hg, Option.map_some'] at hlk
            rw [Option.some.injEq] at hlk
            rw [← hlk] at hcinf
            exact absurd hcinf (lt_irrefl _)
    obtain ⟨nd₁, heap₁, hrel, hK1, hF1, hM1, hB1, hS1, hHS1, hHG1, hFR1, hHI1⟩ :=
      relaxAll_A g src src [src] hcl hnn hnd (List.mem_cons_self _ _) nbrs₀ hnbrs₀
        nbrs₀ (fun jw hjw => hjw) (dset (initND g) src ⟨0, []⟩) []
        hK0 hB0 hS0 (by intro c k h; simp at h) (by intro i hi hiz; simp at hi)
    rw [hrel]
    dsimp only
    have hnd₁src : dlookup nd₁ src = some ⟨0, []⟩ := by
      rw [hF1 src (List.mem_cons_self _ _), dlookup_dset_self]
    have hVIS1 : ∀ v ∈ ([src] : List Node), ∀ info, dlookup nd₁ v = some info →
        ∀ q, isPathB g src v q = true → info.cost ≤ costB g q := by
      intro v hv info hinfo q hq
      have hvs : v = src := List.mem_singleton.mp hv
      subst v
      rw [hnd₁src, Option.some.injEq] at hinfo
      rw [← hinfo]
      show (0 : Int) ≤ costB g q
      unfold isPathB at hq
      rw [Bool.and_eq_true, Bool.and_eq_true] at hq
      exact costB_nonneg hnn q hq.2
    have hFR1' : ∀ v ∈ ([src] : List Node), ∀ j w, edgeW g v j = some w →
        j ∉ ([src] : List Node) →
        ∃ c, ((c, j) : Entry) ∈ heap₁ ∧
          ∀ info, dlookup nd₁ v = some info → c ≤ info.cost + w := by
      intro v hv j w hew hjnv
      have hvs : v = src := List.mem_singleton.mp hv
      subst v
      have hjmem : (j, w) ∈ nbrs₀ := by
        have hew2 := hew
        unfold edgeW at hew2
        rw [hnbrs₀] at hew2
        dsimp only [Option.bind] at hew2
        exact dlookup_mem hew2
      obtain ⟨cj, hcj, hcjb⟩ := hFR1 j w hjmem hjnv
      refine ⟨cj, hcj, ?_⟩
      intro info hinfo
      rw [hnd₁src, Option.some.injEq] at hinfo
      exact hcjb info (by rw [dlookup_dset_self, hinfo])
    obtain ⟨_, hlen1⟩ := relaxAll_spec src [src] nbrs₀
      (dset (initND g) src ⟨0, []⟩) [] nd₁ heap₁ hrel
    have hrdv := remDeg_visit src [] nbrs₀ (by simp) g hnbrs₀
    simp only [List.nil_append] at hrdv
    rw [remDeg_nil] at hrdv
    obtain ⟨ndR, hdone, hKR, hC1, hC2⟩ :=
      dloop_A g src dst hcl hnn hnd hsd (1 + totalDeg g) nd₁ [src] heap₁
        (by
          unfold potential
          simp only [List.length_nil] at hlen1
          omega)
        (List.mem_cons_self _ _)
        (by intro v hv; rw [List.mem_singleton.mp hv]; exact hs)
        hK1 hB1 hS1 hVIS1 hHS1 hFR1' hHI1
    rw [hdone]
    dsimp only
    obtain ⟨infoD, hinfoD, hinfole⟩ := hC2 dst p₀ hp₀ hp₀c
    rw [hinfoD]
    dsimp only
    have hDinf : infoD.cost < inf := lt_of_le_of_lt hinfole hp₀c
    obtain ⟨hpathD, hcostD⟩ := hC1 dst infoD hinfoD hDinf
    refine ⟨infoD.pred ++ [dst], hpathD, rfl, ?_⟩
    intro q hq
    rw [hcostD]
    by_cases hqinf : costB g q < inf
    · obtain ⟨infoD2, hinfoD2, hle2⟩ := hC2 dst q hq hqinf
      rw [hinfoD, Option.some.injEq] at hinfoD2
      rw [hinfoD2]
      exact hle2
    · push_neg at hqinf
      omega

/-- Witness for C2 on the two-node unit-weight graph: the returned string is
the join of a minimal path from `A` to `B`. -/
theorem dijkstra_correct_witness :
    ∃ p, isPathB [("A", [("B", 1)]), ("B", [("A", 1)])] "A" "B" p = true ∧
      dijkstra [("A", [("B", 1)]), ("B", [("A", 1)])] "A" "B" =
        .ok (joinSpace p) ∧
      ∀ q, isPathB [("A", [("B", 1)]), ("B", [("A", 1)])] "A" "B" q = true →
        costB [("A", [("B", 1)]), ("B", [("A", 1)])] p ≤
          costB [("A", [("B", 1)]), ("B", [("A", 1)])] q :=
  dijkstra_correct [("A", [("B", 1)]), ("B", [("A", 1)])] "A" "B"
    (by decide) (by decide) (by decide) (by decide) (by decide)
    ⟨["A", "B"], by decide, by decide⟩

/-- Counterexample to C2 as stated: on the closed nonnegative-weight graph
`{A: {B: sys.maxsize}, B: {A: sys.maxsize}}` the destination `B` is reachable
from `A`, yet the run returns the string `B`, which is not the join of any
path from `A` to `B`: the relaxation of the only edge is rejected because
`0 + sys.maxsize < sys.maxsize` is false, so the sentinel `inf = sys.maxsize`
behaves as an attainable total weight, not as infinity. -/
theorem dijkstra_correct_cex :
    nonnegB [("A", [("B", inf)]), ("B", [("A", inf)])] = true ∧
    closedB [("A", [("B", inf)]), ("B", [("A", inf)])] = true ∧
    "A" ∈ dkeys [("A", [("B", inf)]), ("B", [("A", inf)])] ∧
    "B" ∈ dkeys [("A", [("B", inf)]), ("B", [("A", inf)])] ∧
    Reach [("A", [("B", inf)]), ("B", [("A", inf)])] "A" "B" ∧
    ¬ ∃ p, isPathB [("A", [("B", inf)]), ("B", [("A", inf)])] "A" "B" p = true ∧
      dijkstra [("A", [("B", inf)]), ("B", [("A", inf)])] "A" "B" =
        .ok (joinSpace p) := by
  refine ⟨by decide, by decide, by decide, by decide,
    ⟨["A", "B"], by decide⟩, ?_⟩
  rintro ⟨p, hpath, hres⟩
  have hval : dijkstra [("A", [("B", inf)]), ("B", [("A", inf)])] "A" "B" =
      .ok "B" := by decide
  rw [hval] at hres
  have hjoin : joinSpace p = "B" := ((DRes.ok.injEq _ _).mp hres).symm
  unfold isPathB at hpath
  rw [Bool.and_eq_true, Bool.and_eq_true] at hpath
  obtain ⟨⟨hh, hl⟩, _⟩ := hpath
  rw [beq_iff_eq] at hh hl
  cases p with
  | nil => simp at hh
  | cons a p' =>
      have ha : a = "A" := by simpa using hh
      subst a
      cases p' with
      | nil =>
          have : "A" = "B" := by simpa using hl
          exact absurd this (by decide)
      | cons b p'' =>
          have hJ : joinSpace ("A" :: b :: p'') =
              ("A" : String) ++ " " ++ joinSpace (b :: p'') := rfl
          have hlen2 : (joinSpace ("A" :: b :: p'')).length =
              2 + (joinSpace (b :: p'')).length := by
            rw [hJ, String.length_append, String.length_append]
            have h1 : ("A" : String).length = 1 := by decide
            have h2 : (" " : String).length = 1 := by decide
            omega
          rw [hjoin] at hlen2
          have hlenB : ("B" : String).length = 1 := by decide
          omega

/-- C7: on the weighted reference graph of the test fixture, `dijkstra`
returns exactly the pinned literal path strings `"A C D"`, `"A C E F"` and
`"F E C A"`. -/
theorem dijkstra_test_fixture :
    dijkstra test_graph "A" "D" = .ok "A C D" ∧
    dijkstra test_graph "A" "F" = .ok "A C E F" ∧
    dijkstra test_graph "F" "A" = .ok "F E C A" := by
  refine ⟨?_, ?_, ?_⟩ <;> decide

/-- C8: `get_mapping` is a bijection between the 64 in-range coordinates and
the 64 labels `A1`..`H8`: every coordinate maps to the label built from its
file letter (row) and rank digit (column), the inverse mapping recovers the
coordinate, and every label is hit by some in-range coordinate. -/
theorem get_mapping_bijective :
    (∀ p : Nat × Nat, p ∈ coordList →
      ∃ lab, mlookup get_mapping p = some lab ∧
        lab.data = [filesStr.getD p.1 ' ', ranksStr.getD p.2 ' '] ∧
        ilookup inv_mapping lab = some p) ∧
    (∀ lab, lab ∈ letters →
      ∃ p, p ∈ coordList ∧ mlookup get_mapping p = some lab) := by
  constructor
  · decide
  · decide

theorem get_mapping_bijective_witness :
    ∃ lab, mlookup get_mapping (0, 0) = some lab ∧
      lab.data = [filesStr.getD 0 ' ', ranksStr.getD 0 ' '] ∧
      ilookup inv_mapping lab = some (0, 0) :=
  get_mapping_bijective.1 (0, 0) (by decide)

end Knights
